import Mathlib

/-!
Verification of the series-processing repository.

The file embeds the two source modules as executable Lean definitions:

* `rename_episodes.py` — the fixed regular expression `EPISODE_NAME_RE`
  is embedded as a specialised backtracking matcher (`episodeNameMatchL`)
  with Python `re` semantics (leftmost match, greedy `.*` / `\d+` / `(...)+`,
  lazy `.*?`, `.` not matching a newline, `$` accepting one trailing newline,
  ASCII `\d`), and `normalize` is embedded on top of it.
* `series_renamer.py` — configured patterns are arbitrary in the source, so
  they are modelled as abstract match functions; the control flow (including
  which Python exceptions each `try/except` actually catches) is embedded
  exactly, with raised exceptions surfaced through `Except PyErr`.
-/

namespace SeriesProc

/-- First-success choice, the order a backtracking regex engine uses. -/
def alt {α : Type} : Option α → Option α → Option α
  | some a, _ => some a
  | none, b => b

/-- `\d` (ASCII decimal digit model of Python's digit class). -/
def isDig (c : Char) : Bool := c.isDigit

/-- Character class `[Ss]`. -/
def isSChar (c : Char) : Bool := c == 'S' || c == 's'

/-- Character class `[Ee]`. -/
def isEChar (c : Char) : Bool := c == 'E' || c == 'e'

/-- Character class `[pрi]` from `EPISODE_NAME_RE` (the middle letter is the
Cyrillic letter `р`, U+0440). -/
def isResChar (c : Char) : Bool := c == 'p' || c == 'р' || c == 'i'

/-- Length of the maximal digit prefix, the first candidate of a greedy `\d+`. -/
def digitRunLen : List Char → Nat
  | [] => 0
  | c :: l => if isDig c then digitRunLen l + 1 else 0

/-- Try `f k` for `k = n, n-1, …, 1`: backtracking order of a greedy `\d+`
whose maximal run has length `n`. -/
def tryKsDesc {α : Type} (f : Nat → Option α) : Nat → Option α
  | 0 => none
  | k + 1 => alt (f (k + 1)) (tryKsDesc f k)

/-- Try `f n, f (n-1), …, f 0`: backtracking order of a greedy `.*` whose
maximal expansion has length `n`. -/
def tryNsDesc {α : Type} (f : Nat → Option α) : Nat → Option α
  | 0 => f 0
  | n + 1 => alt (f (n + 1)) (tryNsDesc f n)

/-- The alternation `(mkv|mp4|wmv|avi)`, in source order. -/
def extOptions : List (List Char) := [['m', 'k', 'v'], ['m', 'p', '4'], ['w', 'm', 'v'], ['a', 'v', 'i']]

/-- Python's `$`: end of the string, or just before one final newline. -/
def atEnd : List Char → Bool
  | [] => true
  | ['\n'] => true
  | _ => false

/-- Try each extension alternative in order; the alternative must be followed
by `$`. -/
def findExt (rest : List Char) : List (List Char) → Option (List Char)
  | [] => none
  | e :: es => if rest.take 3 == e && atEnd (rest.drop 3) then some e else findExt rest es

/-- `\.(?P<extension>mkv|mp4|wmv|avi)$` at the current position. -/
def tryExtHere : List Char → Option (List Char)
  | c :: rest => if c == '.' then findExt rest extOptions else none
  | [] => none

/-- `.*?\.(?P<extension>mkv|mp4|wmv|avi)$`: lazy scan, nearest position first;
`.` does not cross a newline. -/
def matchTail : List Char → Option (List Char)
  | [] => none
  | c :: l => alt (tryExtHere (c :: l)) (if c == '\n' then none else matchTail l)

/-- `(?P<resolution>\d+([pрi]))` anchored at the current position (greedy
digits, backtracking), followed by the tail of the pattern.  Returns the
captured resolution and extension. -/
def tryResHere (l : List Char) : Option (List Char × List Char) :=
  tryKsDesc (fun k =>
    match l.drop k with
    | c :: rest =>
      if isResChar c then (matchTail rest).map (fun ext => (l.take k ++ [c], ext)) else none
    | [] => none) (digitRunLen l)

/-- `.*?(?P<resolution>\d+([pрi])).*?\.(…)$`: lazy scan for the resolution. -/
def matchResSearch : List Char → Option (List Char × List Char)
  | [] => none
  | c :: l => alt (tryResHere (c :: l)) (if c == '\n' then none else matchResSearch l)

/-- The repetition part of `(?P<episodes>([Ee](?P<episode>\d+))+)` after at
least one iteration has matched (`acc` is the text consumed so far).  Greedy:
a further iteration is preferred over leaving the group.  Returns the episodes
capture, the resolution capture and the extension capture. -/
def matchEpsRep : Nat → List Char → List Char → Option (List Char × List Char × List Char)
  | 0, _, _ => none
  | fuel + 1, acc, l =>
    alt
      (match l with
        | c :: l1 =>
          if isEChar c then
            tryKsDesc (fun k => matchEpsRep fuel (acc ++ c :: l1.take k) (l1.drop k)) (digitRunLen l1)
          else none
        | [] => none)
      ((matchResSearch l).map (fun p => (acc, p.1, p.2)))

/-- `(?P<episodes>([Ee](?P<episode>\d+))+)` and the rest of the pattern: the
mandatory first iteration, then `matchEpsRep`. -/
def matchEpisodesStart (fuel : Nat) (l : List Char) : Option (List Char × List Char × List Char) :=
  match l with
  | c :: l1 =>
    if isEChar c then
      tryKsDesc (fun k => matchEpsRep fuel (c :: l1.take k) (l1.drop k)) (digitRunLen l1)
    else none
  | [] => none

/-- The capture groups of `EPISODE_NAME_RE` that `normalize` reads. -/
structure EpGroups where
  name : List Char
  season : List Char
  episodes : List Char
  resolution : List Char
  extension : List Char
deriving DecidableEq, Repr

/-- `([Ss](?P<season>\d+))` and the rest of the pattern, anchored at the
current position.  Returns season, episodes, resolution, extension. -/
def matchSeasonStart (fuel : Nat) (l : List Char) : Option (List Char × List Char × List Char × List Char) :=
  match l with
  | c :: l1 =>
    if isSChar c then
      tryKsDesc (fun k => (matchEpisodesStart fuel (l1.drop k)).map
        (fun t => (l1.take k, t.1, t.2.1, t.2.2))) (digitRunLen l1)
    else none
  | [] => none

/-- Length of the maximal prefix without a newline: the greedy first candidate
of `(?P<name>.*)`. -/
def noLfLen : List Char → Nat
  | [] => 0
  | c :: l => if c == '\n' then 0 else noLfLen l + 1

/-- `EPISODE_NAME_RE.match`: `^(?P<name>.*)([Ss](?P<season>\d+))`
`(?P<episodes>([Ee](?P<episode>\d+))+).*?(?P<resolution>\d+([pрi]))`
`.*?\.(?P<extension>mkv|mp4|wmv|avi)$` — the greedy `name` tries the longest
split first. -/
def episodeNameMatchL (s : List Char) : Option EpGroups :=
  tryNsDesc (fun n =>
    (matchSeasonStart (s.length + 1) (s.drop n)).map
      (fun t => ⟨s.take n, t.1, t.2.1, t.2.2.1, t.2.2.2⟩)) (noLfLen s)

/-- `"0" + x` when `len(x) == 1` — the zero padding used for the season and
each episode number in `normalize`. -/
def padTwo (l : List Char) : List Char := if l.length == 1 then '0' :: l else l

/-- `re.finditer` of `EPISODE_GROUP_RE = [Ee](?P<episode>\d+)` over the
episodes capture: non-overlapping, left to right, greedy digits.  Returns the
digit captures in order.  Fuel-driven (the scan advances at least one
character per step). -/
def finditerEp : Nat → List Char → List (List Char)
  | 0, _ => []
  | _, [] => []
  | fuel + 1, c :: l =>
    if isEChar c && digitRunLen l != 0 then
      l.take (digitRunLen l) :: finditerEp fuel (l.drop (digitRunLen l))
    else
      finditerEp fuel l

/-- The character set of Python `strip(". ")`. -/
def isStripCh (c : Char) : Bool := c == '.' || c == ' '

/-- Python `x.strip(". ")`. -/
def stripDotSpace (l : List Char) : List Char :=
  ((l.dropWhile isStripCh).reverse.dropWhile isStripCh).reverse

/-- Python `x.replace(" ", ".")`, pointwise. -/
def spaceToDot (c : Char) : Char := if c == ' ' then '.' else c

/-- Python `x.replace('р', 'p')`, pointwise: Cyrillic `р` to Latin `p`. -/
def ruToP (c : Char) : Char := if c == 'р' then 'p' else c

/-- The `episode_numbers` accumulation loop of `normalize`: for each finditer
capture, append `E` plus the zero-padded digits. -/
def epsBuild (toks : List (List Char)) : List Char :=
  toks.foldl (fun acc ep => acc ++ 'E' :: padTwo ep) []

/-- Python `x.endswith("p")`. -/
def endsWithP (l : List Char) : Bool :=
  match l.getLast? with
  | some c => c == 'p'
  | none => false

/-- The body of `normalize` after a successful match: strip and dot the show
name, zero-pad the season, rebuild the episode tokens, fix the resolution,
and reassemble. -/
def normalizeG (prompt : List Char) (g : EpGroups) : List Char :=
  let showName := (stripDotSpace g.name).map spaceToDot
  let seasonNumber := padTwo g.season
  let episodeNumbers := epsBuild (finditerEp (g.episodes.length + 1) g.episodes)
  let resolution :=
    if g.resolution == [] then (if endsWithP prompt then prompt else prompt ++ ['p'])
    else g.resolution.map ruToP
  showName ++ '.' :: 'S' :: (seasonNumber ++ episodeNumbers) ++ '.' :: (resolution ++ '.' :: g.extension)

/-- `normalize` from `rename_episodes.py`, on character lists.  `prompt`
models the string the operator would type at the `input(...)` fallback; the
fallback is only reached when the resolution capture is empty. -/
def normalizeL (prompt : List Char) (s : List Char) : Option (List Char) :=
  match episodeNameMatchL s with
  | none => none
  | some g => some (normalizeG prompt g)

/-- `normalize` with an explicit operator answer for the interactive branch. -/
def normalizeWith (prompt : String) (filename : String) : Option String :=
  (normalizeL prompt.data filename.data).map (fun l => String.mk l)

/-- `normalize(filename)` from `rename_episodes.py` (the interactive branch is
dead; see the claim about it). -/
def normalize (filename : String) : Option String := normalizeWith "" filename

/-! ### series_renamer.py -/

/-- The Python exceptions that the control flow of `series_renamer.py` can
raise or catch. -/
inductive PyErr
  | valueError
  | typeError
  | indexError
  | attributeError
deriving DecidableEq, Repr

/-- Python `\s` / `str.strip()` whitespace (ASCII model). -/
def isPySpace (c : Char) : Bool :=
  c == ' ' || c == '\t' || c == '\n' || c == '\r' || c == '\x0b' || c == '\x0c'

/-- Numeric value of a decimal digit character. -/
def digVal (c : Char) : Nat := c.toNat - '0'.toNat

/-- Value of a string of decimal digits. -/
def decValue (l : List Char) : Nat := l.foldl (fun a c => a * 10 + digVal c) 0

/-- Digits of a Python integer literal after the first digit: decimal digits
with single underscores allowed between digits. -/
def pyDigitsAux : List Char → Nat → Option Nat
  | [], acc => some acc
  | '_' :: c :: l, acc => if isDig c then pyDigitsAux l (acc * 10 + digVal c) else none
  | '_' :: [], _ => none
  | c :: l, acc => if isDig c then pyDigitsAux l (acc * 10 + digVal c) else none

/-- A nonempty run of decimal digits with single underscores between digits. -/
def pyDigitsRun : List Char → Option Nat
  | [] => none
  | c :: l => if isDig c then pyDigitsAux l (digVal c) else none

/-- Python `int(str)` (ASCII model): optional surrounding whitespace, optional
single sign, then digits.  `none` models a raised `ValueError`. -/
def pythonInt (s : String) : Option Int :=
  match ((s.data.dropWhile isPySpace).reverse.dropWhile isPySpace).reverse with
  | '+' :: r => (pyDigitsRun r).map (fun n => (n : Int))
  | '-' :: r => (pyDigitsRun r).map (fun n => -(n : Int))
  | r => (pyDigitsRun r).map (fun n => (n : Int))

/-- A regex group selector: positional index or group name. -/
inductive GroupId
  | idx (n : Nat)
  | named (s : String)
deriving DecidableEq, Repr

/-- A successful match of a configured episode pattern, at the interface
`parse_episode_info` uses: `group g` is `none` when the group does not exist
(Python raises `IndexError`), `some none` when the group did not participate
(Python returns `None`), and `some (some s)` for a captured substring. -/
structure PyMatchG where
  group : GroupId → Option (Option String)

/-- A successful match of a configured season-directory pattern:
`groupdict()` as an association list, plus positional group 1 at the same
interface as `PyMatchG.group`. -/
structure PyMatchD where
  named : List (String × Option String)
  group1 : Option (Option String)

/-- `EpisodePattern` from `series_renamer.py`; the compiled regex is an
abstract match function because it is configuration, not fixed code. -/
structure EpisodePattern where
  pattern : String → Option PyMatchG
  season_group : Option GroupId := some (GroupId.idx 1)
  episodes_group : GroupId := GroupId.idx 2
  resolution_group : Option GroupId := none

/-- `EpisodeInfo` from `series_renamer.py`. -/
structure EpisodeInfo where
  season : Int
  episodes : List Int
  resolution : Option String := none
deriving DecidableEq, Repr

/-- The fixed preference list `['s_num', 'season_num', 'season']`. -/
def seasonGroupNames : List String := ["s_num", "season_num", "season"]

/-- `group_name in groups` plus `groups[group_name]` lookup. -/
def lookupNamed (gd : List (String × Option String)) (k : String) : Option (Option String) :=
  (gd.find? (fun p => p.1 == k)).map (fun p => p.2)

/-- The `for group_name in [...]` loop body of `get_season_from_directory`:
first name that is present with a non-`None` capture. -/
def firstNamedSeason (gd : List (String × Option String)) : List String → Option String
  | [] => none
  | k :: ks =>
    match lookupNamed gd k with
    | some (some v) => some v
    | _ => firstNamedSeason gd ks

/-- `SeriesRenamer.get_season_from_directory`.  The two `try/except` blocks
are embedded exactly as written: `except (AttributeError, IndexError)` and
`except (IndexError, TypeError)` do not catch the `ValueError` that `int`
raises on a non-numeric capture, so that error propagates. -/
def getSeasonFromDirectory : List (String → Option PyMatchD) → String → Except PyErr (Option Int)
  | [], _ => .ok none
  | p :: ps, dirname =>
    match p dirname with
    | none => getSeasonFromDirectory ps dirname
    | some m =>
      match (if m.named.isEmpty then none else firstNamedSeason m.named seasonGroupNames) with
      | some v =>
        match pythonInt v with
        | some n => .ok (some n)
        | none => .error PyErr.valueError
      | none =>
        match m.group1 with
        | none => getSeasonFromDirectory ps dirname
        | some none => getSeasonFromDirectory ps dirname
        | some (some v) =>
          match pythonInt v with
          | some n => .ok (some n)
          | none => .error PyErr.valueError

/-- `episodes_str.upper().startswith('E')`. -/
def upperStartsWithE (l : List Char) : Bool :=
  match l with
  | c :: _ => c.toUpper == 'E'
  | [] => false

/-- `re.search(r"E\d+", s, re.IGNORECASE)` as a boolean: some `[Ee]`
immediately followed by a digit. -/
def hasEDigit : List Char → Bool
  | [] => false
  | c :: l =>
    (isEChar c && (match l with | d :: _ => isDig d | [] => false)) || hasEDigit l

/-- The season-extraction `try` block of `parse_episode_info`:
`except (IndexError, TypeError)` passes, but `int` of a non-numeric capture
raises `ValueError`, which is not caught. -/
def seasonFromPattern (m : PyMatchG) : Option GroupId → Except PyErr (Option Int)
  | none => .ok none
  | some sg =>
    match m.group sg with
    | none => .ok none
    | some none => .ok none
    | some (some s) =>
      if s == "" then .ok none
      else
        match pythonInt s with
        | some n => .ok (some n)
        | none => .error PyErr.valueError

/-- The episodes-parsing step of `parse_episode_info` for a captured episodes
string: `E`-token extraction, else `int` of the whole field (`ValueError`
uncaught when it is not numeric). -/
def episodesFromStr (es : String) : Except PyErr (List Int) :=
  if upperStartsWithE es.data || hasEDigit es.data then
    .ok ((finditerEp (es.data.length + 1) es.data).map (fun t => (decValue t : Int)))
  else
    match pythonInt es with
    | some n => .ok [n]
    | none => .error PyErr.valueError

/-- The resolution-extraction `try` block of `parse_episode_info`: append a
trailing `p` unless already present. -/
def resolutionFromPattern (m : PyMatchG) : Option GroupId → Option String
  | none => none
  | some rg =>
    match m.group rg with
    | some (some rs) =>
      if rs == "" then none
      else some (if endsWithP rs.data then rs else rs ++ "p")
    | _ => none

/-- `if season is None: season = season_from_dir`. -/
def orOpt : Option Int → Option Int → Option Int
  | some n, _ => some n
  | none, b => b

/-- `SeriesRenamer.parse_episode_info`.  Uncaught exceptions of the source are
surfaced in `Except`: `ValueError` from `int` of a non-numeric season or
episodes capture, and `AttributeError` from `None.upper()` when the episodes
group did not participate in the match. -/
def parseEpisodeInfo : List EpisodePattern → String → Option Int → Except PyErr (Option EpisodeInfo)
  | [], _, _ => .ok none
  | ep :: eps, filename, seasonFromDir =>
    match ep.pattern filename with
    | none => parseEpisodeInfo eps filename seasonFromDir
    | some m =>
      match seasonFromPattern m ep.season_group with
      | .error e => .error e
      | .ok s0 =>
        match orOpt s0 seasonFromDir with
        | none => parseEpisodeInfo eps filename seasonFromDir
        | some season =>
          match m.group ep.episodes_group with
          | none => parseEpisodeInfo eps filename seasonFromDir
          | some none => .error PyErr.attributeError
          | some (some es) =>
            match episodesFromStr es with
            | .error e => .error e
            | .ok episodes =>
              if episodes.isEmpty then parseEpisodeInfo eps filename seasonFromDir
              else
                .ok (some { season := season, episodes := episodes,
                            resolution := resolutionFromPattern m ep.resolution_group })

/-- Decimal digit character. -/
def decDigit : Nat → Char
  | 0 => '0' | 1 => '1' | 2 => '2' | 3 => '3' | 4 => '4'
  | 5 => '5' | 6 => '6' | 7 => '7' | 8 => '8' | _ => '9'

/-- Decimal digits of a natural number, fuel-driven. -/
def decDigitsAux : Nat → Nat → List Char
  | 0, _ => []
  | fuel + 1, n => if n < 10 then [decDigit n] else decDigitsAux fuel (n / 10) ++ [decDigit (n % 10)]

/-- Decimal representation of a natural number. -/
def natDecDigits (n : Nat) : List Char := decDigitsAux (n + 1) n

/-- Python `f"{n:02d}"`: sign, then decimal digits, zero-padded between sign
and digits to total width 2. -/
def pyFmt02 (n : Int) : String :=
  let s := (if n < 0 then "-" else "") ++ String.mk (natDecDigits n.natAbs)
  if s.length < 2 then "0" ++ s else s

/-- `SeriesRenamer.build_new_filename`. -/
def buildNewFilename (showName : String) (season : Int) (episodes : List Int)
    (resolution : String) : String :=
  showName ++ "." ++ ("S" ++ pyFmt02 season)
    ++ String.join (episodes.map (fun e => "E" ++ pyFmt02 e))
    ++ "." ++ resolution ++ ".mkv"

/-- The height-to-label bucketing in `get_resolution_from_mkvinfo`. -/
def bucketLabel (height : Nat) : String :=
  if height ≥ 2000 then "2160p"
  else if height ≥ 1000 then "1080p"
  else if height ≥ 680 then "720p"
  else if height ≥ 450 then "480p"
  else String.mk (natDecDigits height) ++ "p"

/-- The literal `Pixel height:` of the probe-output search. -/
def pixelLit : List Char := ['P', 'i', 'x', 'e', 'l', ' ', 'h', 'e', 'i', 'g', 'h', 't', ':']

/-- `Pixel height:\s*(\d+)` anchored at the current position. -/
def tryPixelHere (l : List Char) : Option Nat :=
  if l.take 13 == pixelLit then
    let r := (l.drop 13).dropWhile isPySpace
    if digitRunLen r != 0 then some (decValue (r.take (digitRunLen r))) else none
  else none

/-- `re.search(r"Pixel height:\s*(\d+)", out)`: leftmost occurrence. -/
def probeHeightL : List Char → Option Nat
  | [] => none
  | c :: l => alt (tryPixelHere (c :: l)) (probeHeightL l)

/-- `SeriesRenamer.get_resolution_from_mkvinfo`, over the probe's stdout;
`none` stdout models a subprocess failure, which the source catches and turns
into "no data". -/
def getResolutionFromMkvinfo (stdout : Option String) : Option String :=
  match stdout with
  | none => none
  | some out => (probeHeightL out.data).map bucketLabel

/-- A directory entry as `iterdir` reports it: a name and whether it is a
regular file. -/
structure FileEnt where
  name : String
  isFile : Bool := true
deriving DecidableEq, Repr

/-- Python string `<`: lexicographic comparison by code point. -/
def lexLtCh : List Char → List Char → Bool
  | [], [] => false
  | [], _ :: _ => true
  | _ :: _, [] => false
  | a :: as, b :: bs => if a.toNat < b.toNat then true else if a.toNat == b.toNat then lexLtCh as bs else false

/-- Python string `<=`. -/
def pyStrLe (a b : String) : Bool := !(lexLtCh b.data a.data)

/-- `sorted` on names (ascending, stable). -/
def sortStrings (l : List String) : List String :=
  List.insertionSort (fun a b => pyStrLe a b) l

/-- `sorted(season_dir.iterdir())`: entries ordered by name. -/
def sortFiles (l : List FileEnt) : List FileEnt :=
  List.insertionSort (fun a b => pyStrLe a.name b.name) l

/-- Reported per-file events of `rename_files_in_season`. -/
inductive FsEvent
  | skipUnmatched (name : String)
  | probing
  | seasonSkipped
  | alreadyCorrect (name : String)
  | renamed (oldName newName : String)
deriving DecidableEq, Repr

/-- `l` ends with `suf`. -/
def endsWithL (l suf : List Char) : Bool := l.drop (l.length - suf.length) == suf

/-- `file.name.lower().endswith(".mkv")`. -/
def lowerEndsWithMkv (s : String) : Bool :=
  endsWithL (s.data.map Char.toLower) ['.', 'm', 'k', 'v']

/-- Python truthiness of an optional string: `None` and `""` are falsy. -/
def pyTruthy : Option String → Bool
  | none => false
  | some s => !(s == "")

/-- The collection loop of `rename_files_in_season`: keep regular `.mkv`
files (case-insensitive), parse each, report unmatched ones, collect
`(filename, info)` pairs in order.  An exception from the parser propagates. -/
def seasonCollect (parse : String → Except PyErr (Option EpisodeInfo)) :
    List FileEnt → Except PyErr (List FsEvent × List (String × EpisodeInfo))
  | [] => .ok ([], [])
  | f :: fs =>
    if !f.isFile || !lowerEndsWithMkv f.name then seasonCollect parse fs
    else
      match parse f.name with
      | .error e => .error e
      | .ok none =>
        match seasonCollect parse fs with
        | .error e => .error e
        | .ok (ev, l) => .ok (FsEvent.skipUnmatched f.name :: ev, l)
      | .ok (some info) =>
        match seasonCollect parse fs with
        | .error e => .error e
        | .ok (ev, l) => .ok (ev, (f.name, info) :: l)

/-- The per-file `resolution = info.resolution; if not resolution and
extractor: resolution = extractor(file.name)` step. -/
def fileResolutionStep (extractor : Option (String → Option String))
    (r0 : Option String) (nm : String) : Option String :=
  if !pyTruthy r0 then
    match extractor with
    | some ex => ex nm
    | none => r0
  else r0

/-- A filesystem rename inside one directory listing. -/
def renameFile (files : List FileEnt) (oldName newName : String) : List FileEnt :=
  files.map (fun f => if f.name == oldName then { f with name := newName } else f)

/-- The rename loop of `rename_files_in_season`: per-file resolution
(own capture → extractor → season cache), build the new name, report
already-correct files, rename the rest (mutating only when `dry` is false). -/
def seasonRenameLoop (extractor : Option (String → Option String)) (showName : String)
    (cache : String) (dry : Bool) :
    List (String × EpisodeInfo) → List FileEnt → List FsEvent × List FileEnt
  | [], st => ([], st)
  | (nm, info) :: rest, st =>
    let r1 := fileResolutionStep extractor info.resolution nm
    let res := match (if !pyTruthy r1 then some cache else r1) with
      | some s => s
      | none => ""
    let newName := buildNewFilename showName info.season info.episodes res
    if nm == newName then
      let p := seasonRenameLoop extractor showName cache dry rest st
      (FsEvent.alreadyCorrect nm :: p.1, p.2)
    else
      let st1 := if dry then st else renameFile st nm newName
      let p := seasonRenameLoop extractor showName cache dry rest st1
      (FsEvent.renamed nm newName :: p.1, p.2)

/-- `SeriesRenamer.rename_files_in_season` over a directory listing: collect
matched files, resolve the season resolution once (first file's capture, else
extractor, else probe, else skip the season), then rename every file using
its per-file resolution.  Returns the reported events and the resulting
listing. -/
def renameFilesInSeason (parse : String → Except PyErr (Option EpisodeInfo))
    (extractor : Option (String → Option String)) (probe : String → Option String)
    (showName : String) (dirFiles : List FileEnt) (dry : Bool) :
    Except PyErr (List FsEvent × List FileEnt) :=
  match seasonCollect parse (sortFiles dirFiles) with
  | .error e => .error e
  | .ok (ev0, toRename) =>
    match toRename with
    | [] => .ok (ev0, dirFiles)
    | (nm0, info0) :: _ =>
      let cache0 : Option String :=
        if pyTruthy info0.resolution then info0.resolution
        else
          match extractor with
          | some ex => ex nm0
          | none => none
      let probed := !pyTruthy cache0
      let cache1 := if probed then probe nm0 else cache0
      let evP := if probed then [FsEvent.probing] else []
      if !pyTruthy cache1 then .ok (ev0 ++ evP ++ [FsEvent.seasonSkipped], dirFiles)
      else
        let cacheVal := match cache1 with
          | some s => s
          | none => ""
        let p := seasonRenameLoop extractor showName cacheVal dry toRename dirFiles
        .ok (ev0 ++ evP ++ p.1, p.2)

/-- Reported events of a whole `run`. -/
inductive RunEvent
  | skipNonSeason (dir : String)
  | processing (dir : String) (season : Int)
  | fileEv (dir : String) (e : FsEvent)
  | skipUnmatchedDir (dir : String)
  | dirAlreadyCorrect (dir : String)
  | dirRenamed (oldName newName : String)
deriving DecidableEq, Repr

/-- `SeriesRenamer.rename_season_directory`: events plus the directory rename
to apply (`none` in dry-run mode or when nothing is to be done). -/
def renameSeasonDirectoryStep (seasonPats : List (String → Option PyMatchD))
    (showNameSpaced : String) (d : String) (dry : Bool) :
    Except PyErr (List RunEvent × Option (String × String)) :=
  match getSeasonFromDirectory seasonPats d with
  | .error e => .error e
  | .ok none => .ok ([RunEvent.skipUnmatchedDir d], none)
  | .ok (some sn) =>
    if d == showNameSpaced ++ " " ++ toString sn then
      .ok ([RunEvent.dirAlreadyCorrect d], none)
    else
      .ok ([RunEvent.dirRenamed d (showNameSpaced ++ " " ++ toString sn)],
        if dry then none else some (d, showNameSpaced ++ " " ++ toString sn))

/-- A directory entry of the base directory. -/
structure DirEnt where
  name : String
  isDir : Bool := true
  files : List FileEnt := []
deriving DecidableEq, Repr

/-- `season_dir.iterdir()`: the files of the directory with this name. -/
def lookupDirFiles (st : List DirEnt) (d : String) : List FileEnt :=
  match st.find? (fun e => e.name == d) with
  | some e => e.files
  | none => []

/-- Write back the file listing of the directory with this name. -/
def setDirFiles (st : List DirEnt) (d : String) (files : List FileEnt) : List DirEnt :=
  st.map (fun e => if e.name == d then { e with files := files } else e)

/-- Rename a directory of the base directory. -/
def renameDirEnt (st : List DirEnt) (oldName newName : String) : List DirEnt :=
  st.map (fun e => if e.name == oldName then { e with name := newName } else e)

/-- `SeriesConfig`, restricted to what `run` consumes. -/
structure RenConfig where
  showName : String
  showNameSpaced : String
  seasonDirPatterns : List (String → Option PyMatchD)
  episodePatterns : List EpisodePattern
  resolutionExtractor : Option (String → Option String) := none

/-- `name.startswith(".")`. -/
def startsWithDot (s : String) : Bool :=
  match s.data with
  | c :: _ => c == '.'
  | [] => false

/-- Phase 1 of `run`: rename the files inside each season directory.  Stops
at the first uncaught exception, keeping the events reported so far. -/
def runPhase1 (cfg : RenConfig) (probe : String → String → Option String) (dry : Bool) :
    List String → List DirEnt → List RunEvent × List DirEnt × Option PyErr
  | [], st => ([], st, none)
  | d :: ds, st =>
    match getSeasonFromDirectory cfg.seasonDirPatterns d with
    | .error e => ([], st, some e)
    | .ok none =>
      let r := runPhase1 cfg probe dry ds st
      (RunEvent.skipNonSeason d :: r.1, r.2.1, r.2.2)
    | .ok (some sn) =>
      match renameFilesInSeason
          (fun fn => parseEpisodeInfo cfg.episodePatterns fn (some sn))
          cfg.resolutionExtractor (probe d) cfg.showName (lookupDirFiles st d) dry with
      | .error e => ([RunEvent.processing d sn], st, some e)
      | .ok q =>
        let st1 := setDirFiles st d q.2
        let r := runPhase1 cfg probe dry ds st1
        (RunEvent.processing d sn :: (q.1.map (RunEvent.fileEv d) ++ r.1), r.2.1, r.2.2)

/-- Phase 2 of `run`: rename the season directories themselves. -/
def runPhase2 (cfg : RenConfig) (dry : Bool) :
    List String → List DirEnt → List RunEvent × List DirEnt × Option PyErr
  | [], st => ([], st, none)
  | d :: ds, st =>
    match getSeasonFromDirectory cfg.seasonDirPatterns d with
    | .error e => ([], st, some e)
    | .ok none => runPhase2 cfg dry ds st
    | .ok (some _) =>
      match renameSeasonDirectoryStep cfg.seasonDirPatterns cfg.showNameSpaced d dry with
      | .error e => ([], st, some e)
      | .ok q =>
        let st1 := match q.2 with
          | some p => renameDirEnt st p.1 p.2
          | none => st
        let r := runPhase2 cfg dry ds st1
        (q.1 ++ r.1, r.2.1, r.2.2)

/-- `SeriesRenamer.run`: materialize the sorted season-directory list once,
then phase 1 (files) followed by phase 2 (directories). -/
def runRenamer (cfg : RenConfig) (probe : String → String → Option String)
    (dry : Bool) (st : List DirEnt) : List RunEvent × List DirEnt × Option PyErr :=
  let seasonDirs := sortStrings ((st.filter (fun e => e.isDir && !startsWithDot e.name)).map (fun e => e.name))
  let r1 := runPhase1 cfg probe dry seasonDirs st
  match r1.2.2 with
  | some e => (r1.1, r1.2.1, some e)
  | none =>
    let r2 := runPhase2 cfg dry seasonDirs r1.2.1
    (r1.1 ++ r2.1, r2.2.1, r2.2.2)

/-! ### Spec-side definitions (used to state the claims) -/

/-- Apply the configured resolution extractor, if any. -/
def applyExtractor (extractor : Option (String → Option String)) (nm : String) : Option String :=
  match extractor with
  | some ex => ex nm
  | none => none

/-- First value of a chain that yields something (Python-truthy), the spec's
"first success wins". -/
def firstTruthy : List (Option String) → Option String
  | [] => none
  | o :: os => if pyTruthy o then o else firstTruthy os

/-- Modelled from the spec (§4.4): the season-level resolution, determined
from the first matched file — own capture, else extractor, else probe. -/
def specSeasonResolution (extractor : Option (String → Option String))
    (probe : String → Option String) (nm : String) (info : EpisodeInfo) : Option String :=
  firstTruthy [info.resolution, applyExtractor extractor nm, probe nm]

/-- Modelled from the spec (§4.4): per-file resolution — own capture, else
extractor, else the cached season-level value. -/
def specFileResolution (extractor : Option (String → Option String))
    (cache : String) (nm : String) (info : EpisodeInfo) : String :=
  match firstTruthy [info.resolution, applyExtractor extractor nm] with
  | some s => s
  | none => cache

/-- The season plan written from the spec's words: `none` when the priority
chain yields nothing for the first matched file (season skipped, nothing
renamed), otherwise the old→new pairs of every matched file whose name
changes. -/
def specSeasonPlan (parse : String → Except PyErr (Option EpisodeInfo))
    (extractor : Option (String → Option String)) (probe : String → Option String)
    (showName : String) (dirFiles : List FileEnt) :
    Except PyErr (Option (List (String × String))) :=
  match seasonCollect parse (sortFiles dirFiles) with
  | .error e => .error e
  | .ok (_, toRename) =>
    match toRename with
    | [] => .ok (some [])
    | (nm0, info0) :: _ =>
      match specSeasonResolution extractor probe nm0 info0 with
      | none => .ok none
      | some cache =>
        .ok (some ((toRename.map (fun q =>
          (q.1, buildNewFilename showName q.2.season q.2.episodes
            (specFileResolution extractor cache q.1 q.2)))).filter (fun q => !(q.1 == q.2))))

/-- The renames reported among per-file events. -/
def renamesOfFs (ev : List FsEvent) : List (String × String) :=
  ev.filterMap (fun e =>
    match e with
    | FsEvent.renamed a b => some (a, b)
    | _ => none)

/-- Whether the season-skipped notice was reported. -/
def seasonSkippedIn (ev : List FsEvent) : Bool :=
  ev.any (fun e =>
    match e with
    | FsEvent.seasonSkipped => true
    | _ => false)

/-- An applied file-level rename, as a run event. -/
def isFileRenameEv : RunEvent → Bool
  | RunEvent.fileEv _ (FsEvent.renamed _ _) => true
  | _ => false

/-- An applied directory-level rename, as a run event. -/
def isDirRenameEv : RunEvent → Bool
  | RunEvent.dirRenamed _ _ => true
  | _ => false

/-- Modelled from the spec: a resolution label of the form `<digits>p`. -/
def isDigitsP (l : List Char) : Bool :=
  !l.dropLast.isEmpty && l.dropLast.all isDig && (l.getLast? == some 'p')

/-- Modelled from the spec (§4.4 step 3): the claimed height bucketing. -/
def specBucket (h : Nat) : String :=
  if 2000 ≤ h then "2160p"
  else if 1000 ≤ h then "1080p"
  else if 680 ≤ h then "720p"
  else if 450 ≤ h then "480p"
  else String.mk (natDecDigits h) ++ "p"

/-- `E`-token concatenation of a list of digit tokens (the canonical episodes
block `E01E02…`). -/
def epsChain : List (List Char) → List Char
  | [] => []
  | d :: ds => 'E' :: d ++ epsChain ds

/-- The shape of every string `normalize` outputs. -/
def canonicalOut (nm ss eps res ext : List Char) : List Char :=
  nm ++ '.' :: 'S' :: (ss ++ eps) ++ '.' :: (res ++ '.' :: ext)

/-! ### Concrete configurations (inputs the claims are checked on) -/

/-- A season-directory pattern capturing a non-numeric season word, as
`re.compile(r"Season (?P<season>\w+)")` does on `"Season five"`. -/
def seasonWordPattern (dirname : String) : Option PyMatchD :=
  if dirname == "Season five" then some ⟨[("season", some "five")], none⟩ else none

/-- An episode pattern whose positional group 1 captures a non-numeric
season, as `re.compile(r"^Show\.(\w)x(\d+)\.mkv$")` does on `"Show.Xx3.mkv"`. -/
def nonNumericSeasonPattern : EpisodePattern :=
  { pattern := fun fn =>
      if fn == "Show.Xx3.mkv" then
        some ⟨fun g =>
          if g == GroupId.idx 1 then some (some "X")
          else if g == GroupId.idx 2 then some (some "3")
          else none⟩
      else none }

/-- An episode pattern whose resolution capture lacks the trailing `p`. -/
def bareResolutionPattern : EpisodePattern :=
  { pattern := fun fn =>
      if fn == "x.mkv" then
        some ⟨fun g =>
          if g == GroupId.idx 1 then some (some "2")
          else if g == GroupId.idx 2 then some (some "E03")
          else if g == GroupId.idx 3 then some (some "1080")
          else none⟩
      else none,
    resolution_group := some (GroupId.idx 3) }

/-- A season-directory pattern matching `Season 1`. -/
def seasonNumPattern (dirname : String) : Option PyMatchD :=
  if dirname == "Season 1" then some ⟨[("season", some "1")], none⟩ else none

/-- An episode pattern matching the fixture file `a.mkv` (season 1,
episode 1, no resolution capture). -/
def epFixturePattern : EpisodePattern :=
  { pattern := fun fn =>
      if fn == "a.mkv" then
        some ⟨fun g =>
          if g == GroupId.idx 1 then some (some "1")
          else if g == GroupId.idx 2 then some (some "E01")
          else none⟩
      else none }

/-- A concrete `SeriesConfig` for the run-level claims. -/
def fixtureCfg : RenConfig :=
  { showName := "Show", showNameSpaced := "Show",
    seasonDirPatterns := [seasonNumPattern],
    episodePatterns := [epFixturePattern] }

/-- A concrete probe that always reports 720p. -/
def fixtureProbe (_ : String) (_ : String) : Option String := some "720p"

/-- A concrete base directory: one season directory with one episode file. -/
def fixtureSt : List DirEnt := [{ name := "Season 1", files := [{ name := "a.mkv" }] }]

/-! ### Lemmas on the search combinators -/

theorem alt_eq_some {α : Type} {a b : Option α} {v : α} :
    alt a b = some v ↔ a = some v ∨ (a = none ∧ b = some v) := by
  cases a <;> simp [alt]

theorem tryKsDesc_eq_some {α : Type} {f : Nat → Option α} {n : Nat} {v : α}
    (h : tryKsDesc f n = some v) : ∃ k, 1 ≤ k ∧ k ≤ n ∧ f k = some v := by
  induction n with
  | zero => simp [tryKsDesc] at h
  | succ n ih =>
    simp only [tryKsDesc] at h
    rcases alt_eq_some.1 h with h1 | ⟨_, h2⟩
    · exact ⟨n + 1, by omega, by omega, h1⟩
    · obtain ⟨k, hk1, hk2, hk3⟩ := ih h2
      exact ⟨k, hk1, by omega, hk3⟩

theorem tryNsDesc_eq_some {α : Type} {f : Nat → Option α} {n : Nat} {v : α}
    (h : tryNsDesc f n = some v) : ∃ k, k ≤ n ∧ f k = some v := by
  induction n with
  | zero => exact ⟨0, Nat.le_refl 0, h⟩
  | succ n ih =>
    simp only [tryNsDesc] at h
    rcases alt_eq_some.1 h with h1 | ⟨_, h2⟩
    · exact ⟨n + 1, Nat.le_refl _, h1⟩
    · obtain ⟨k, hk1, hk2⟩ := ih h2
      exact ⟨k, by omega, hk2⟩

theorem tryKsDesc_top {α : Type} {f : Nat → Option α} {k : Nat} {v : α}
    (hk : 1 ≤ k) (h : f k = some v) : tryKsDesc f k = some v := by
  cases k with
  | zero => omega
  | succ k => simp [tryKsDesc, h, alt]

theorem tryNsDesc_of_eq_some {α : Type} {f : Nat → Option α} {n0 : Nat} {v : α}
    (h : f n0 = some v) : tryNsDesc f n0 = some v := by
  cases n0 with
  | zero => exact h
  | succ n => simp [tryNsDesc, h, alt]

theorem tryNsDesc_skip {α : Type} {f : Nat → Option α} {n n0 : Nat}
    (hn : n0 ≤ n) (hnone : ∀ m, n0 < m → f m = none) :
    tryNsDesc f n = tryNsDesc f n0 := by
  induction n with
  | zero =>
    have : n0 = 0 := by omega
    rw [this]
  | succ n ih =>
    rcases Nat.eq_or_lt_of_le hn with h | h
    · rw [h]
    · have h1 : f (n + 1) = none := hnone (n + 1) h
      simp only [tryNsDesc, h1, alt]
      exact ih (by omega)

/-! ### Lemmas on digit runs and newline-free prefixes -/

theorem digitRunLen_le_length (l : List Char) : digitRunLen l ≤ l.length := by
  induction l with
  | nil => simp [digitRunLen]
  | cons c l ih =>
    simp only [digitRunLen, List.length_cons]
    split
    · omega
    · omega

theorem take_isDig_of_le_digitRunLen {l : List Char} {k : Nat} (h : k ≤ digitRunLen l) :
    ∀ c ∈ l.take k, isDig c = true := by
  induction l generalizing k with
  | nil => simp
  | cons a l ih =>
    cases k with
    | zero => simp
    | succ k =>
      simp only [digitRunLen] at h
      split at h
      next ha =>
        intro c hc
        rw [List.take_succ_cons] at hc
        rcases List.mem_cons.1 hc with rfl | hc
        · exact ha
        · exact ih (Nat.le_of_succ_le_succ h) c hc
      next ha => omega

theorem digitRunLen_append (ds rest : List Char) (hds : ∀ c ∈ ds, isDig c = true)
    (hrest : ∀ c, rest.head? = some c → isDig c = false) :
    digitRunLen (ds ++ rest) = ds.length := by
  induction ds with
  | nil =>
    cases rest with
    | nil => simp [digitRunLen]
    | cons c r => simp [digitRunLen, hrest c rfl]
  | cons a ds ih =>
    have ha : isDig a = true := hds a (List.mem_cons_self a ds)
    simp only [List.cons_append, digitRunLen, ha, if_true, List.length_cons, List.append_eq]
    rw [ih (fun c hc => hds c (List.mem_cons_of_mem a hc))]

theorem take_no_lf {s : List Char} {n : Nat} (h : n ≤ noLfLen s) :
    ∀ c ∈ s.take n, (c == '\n') = false := by
  induction s generalizing n with
  | nil => simp
  | cons a s ih =>
    cases n with
    | zero => simp
    | succ n =>
      simp only [noLfLen] at h
      split at h
      next => omega
      next ha =>
        intro c hc
        rw [List.take_succ_cons] at hc
        rcases List.mem_cons.1 hc with rfl | hc
        · simpa using ha
        · exact ih (Nat.le_of_succ_le_succ h) c hc

theorem noLfLen_eq_length {l : List Char} (h : ∀ c ∈ l, (c == '\n') = false) :
    noLfLen l = l.length := by
  induction l with
  | nil => rfl
  | cons a l ih =>
    have ha := h a (List.mem_cons_self a l)
    simp [noLfLen, ha, ih (fun c hc => h c (List.mem_cons_of_mem a hc))]

/-! ### Inversion lemmas for the matcher (what a successful match implies) -/

theorem findExt_mem {rest : List Char} {opts : List (List Char)} {e : List Char}
    (h : findExt rest opts = some e) : e ∈ opts := by
  induction opts with
  | nil => simp [findExt] at h
  | cons o os ih =>
    simp only [findExt] at h
    split at h
    · injection h with h1
      rw [← h1]
      exact List.mem_cons_self _ _
    · exact List.mem_cons_of_mem _ (ih h)

theorem tryExtHere_mem {l e : List Char} (h : tryExtHere l = some e) : e ∈ extOptions := by
  cases l with
  | nil => simp [tryExtHere] at h
  | cons c rest =>
    simp only [tryExtHere] at h
    split at h
    · exact findExt_mem h
    · simp at h

theorem matchTail_mem {l e : List Char} (h : matchTail l = some e) : e ∈ extOptions := by
  induction l with
  | nil => simp [matchTail] at h
  | cons c l ih =>
    simp only [matchTail] at h
    rcases alt_eq_some.1 h with h1 | ⟨_, h2⟩
    · exact tryExtHere_mem h1
    · split at h2
      · simp at h2
      · exact ih h2

/-- What the resolution capture of a successful match looks like. -/
def ResShape (r : List Char) : Prop :=
  ∃ ds c, r = ds ++ [c] ∧ ds ≠ [] ∧ (∀ d ∈ ds, isDig d = true) ∧ isResChar c = true

theorem tryResHere_spec {l : List Char} {r e : List Char}
    (h : tryResHere l = some (r, e)) : ResShape r ∧ e ∈ extOptions := by
  obtain ⟨k, hk1, hk2, hk3⟩ := tryKsDesc_eq_some h
  cases hdrop : l.drop k with
  | nil => rw [hdrop] at hk3; simp at hk3
  | cons c rest =>
    rw [hdrop] at hk3
    simp only at hk3
    split at hk3
    next hc =>
      rcases Option.map_eq_some'.1 hk3 with ⟨ext, hm, heq⟩
      injection heq with heq1 heq2
      refine ⟨⟨l.take k, c, ?_, ?_, ?_, hc⟩, ?_⟩
      · rw [← heq1]
      · have hlen : (l.take k).length = k := by
          rw [List.length_take]
          have := digitRunLen_le_length l
          omega
        intro hnil
        rw [hnil] at hlen
        simp at hlen
        omega
      · exact take_isDig_of_le_digitRunLen hk2
      · rw [← heq2]; exact matchTail_mem hm
    next => simp at hk3

theorem matchResSearch_spec {l : List Char} {r e : List Char}
    (h : matchResSearch l = some (r, e)) : ResShape r ∧ e ∈ extOptions := by
  induction l with
  | nil => simp [matchResSearch] at h
  | cons c l ih =>
    simp only [matchResSearch] at h
    rcases alt_eq_some.1 h with h1 | ⟨_, h2⟩
    · exact tryResHere_spec h1
    · split at h2
      · simp at h2
      · exact ih h2

theorem matchEpsRep_spec {fuel : Nat} {acc l eps r e : List Char}
    (h : matchEpsRep fuel acc l = some (eps, r, e)) :
    (∃ suf, eps = acc ++ suf) ∧ ResShape r ∧ e ∈ extOptions := by
  induction fuel generalizing acc l eps r e with
  | zero => simp [matchEpsRep] at h
  | succ fuel ih =>
    simp only [matchEpsRep] at h
    rcases alt_eq_some.1 h with h1 | ⟨_, h2⟩
    · cases l with
      | nil => simp at h1
      | cons c l1 =>
        simp only at h1
        split at h1
        next =>
          obtain ⟨k, _, _, hk3⟩ := tryKsDesc_eq_some h1
          obtain ⟨⟨suf, hsuf⟩, hres, hext⟩ := ih hk3
          refine ⟨⟨c :: l1.take k ++ suf, ?_⟩, hres, hext⟩
          rw [hsuf]
          simp
        next => simp at h1
    · rcases Option.map_eq_some'.1 h2 with ⟨⟨p1, p2⟩, hm, heq⟩
      injection heq with heq1 heq2
      injection heq2 with heq2 heq3
      subst heq1 heq2 heq3
      obtain ⟨hres, hext⟩ := matchResSearch_spec hm
      exact ⟨⟨[], by simp⟩, hres, hext⟩

/-- What the episodes capture of a successful match looks like: it starts
with an `[Ee]` letter followed by a digit. -/
def EpsShape (eps : List Char) : Prop :=
  ∃ c d suf, eps = c :: d :: suf ∧ isEChar c = true ∧ isDig d = true

theorem matchEpisodesStart_spec {fuel : Nat} {l eps r e : List Char}
    (h : matchEpisodesStart fuel l = some (eps, r, e)) :
    EpsShape eps ∧ ResShape r ∧ e ∈ extOptions := by
  cases l with
  | nil => simp [matchEpisodesStart] at h
  | cons c l1 =>
    simp only [matchEpisodesStart] at h
    split at h
    next hc =>
      obtain ⟨k, hk1, hk2, hk3⟩ := tryKsDesc_eq_some h
      obtain ⟨⟨suf, hsuf⟩, hres, hext⟩ := matchEpsRep_spec hk3
      have hrun : 1 ≤ digitRunLen l1 := by omega
      cases hl1 : l1 with
      | nil =>
        rw [hl1] at hrun
        simp [digitRunLen] at hrun
      | cons d l2 =>
        refine ⟨⟨c, d, l2.take (k - 1) ++ suf, ?_, hc, ?_⟩, hres, hext⟩
        · rw [hsuf, hl1]
          cases k with
          | zero => omega
          | succ k => simp [List.take_succ_cons]
        · have : d ∈ l1.take k := by
            rw [hl1]
            cases k with
            | zero => omega
            | succ k => simp [List.take_succ_cons]
          exact take_isDig_of_le_digitRunLen hk2 d this
    next => simp at h

theorem matchSeasonStart_spec {fuel : Nat} {l : List Char} {ss eps r e : List Char}
    (h : matchSeasonStart fuel l = some (ss, eps, r, e)) :
    (ss ≠ [] ∧ ∀ c ∈ ss, isDig c = true) ∧ EpsShape eps ∧ ResShape r ∧ e ∈ extOptions := by
  cases l with
  | nil => simp [matchSeasonStart] at h
  | cons c l1 =>
    simp only [matchSeasonStart] at h
    split at h
    next =>
      obtain ⟨k, hk1, hk2, hk3⟩ := tryKsDesc_eq_some h
      rcases Option.map_eq_some'.1 hk3 with ⟨⟨t1, t2, t3⟩, hm, heq⟩
      injection heq with heq1 heq2
      injection heq2 with heq2 heq3
      injection heq3 with heq3 heq4
      subst heq1 heq2 heq3 heq4
      obtain ⟨heps, hres, hext⟩ := matchEpisodesStart_spec hm
      refine ⟨⟨?_, take_isDig_of_le_digitRunLen hk2⟩, heps, hres, hext⟩
      have hlen : (l1.take k).length = k := by
        rw [List.length_take]
        have := digitRunLen_le_length l1
        omega
      intro hnil
      rw [hnil] at hlen
      simp at hlen
      omega
    next => simp at h

theorem episodeNameMatchL_spec {s : List Char} {g : EpGroups}
    (h : episodeNameMatchL s = some g) :
    (∀ c ∈ g.name, (c == '\n') = false) ∧
      (g.season ≠ [] ∧ ∀ c ∈ g.season, isDig c = true) ∧
      EpsShape g.episodes ∧ ResShape g.resolution ∧ g.extension ∈ extOptions := by
  obtain ⟨n, hn, hf⟩ := tryNsDesc_eq_some h
  rcases Option.map_eq_some'.1 hf with ⟨t, hm, heq⟩
  obtain ⟨hss, heps, hres, hext⟩ := matchSeasonStart_spec (l := s.drop n) hm
  subst heq
  exact ⟨take_no_lf hn, hss, heps, hres, hext⟩

/-! ### Character classification helpers -/

theorem not_S_of_isDig {c : Char} (h : isDig c = true) : isSChar c = false := by
  by_cases h1 : c = 'S'
  · subst h1; exact absurd h (by decide)
  · by_cases h2 : c = 's'
    · subst h2; exact absurd h (by decide)
    · simp only [isSChar, Bool.or_eq_false_iff]
      exact ⟨beq_eq_false_iff_ne.2 h1, beq_eq_false_iff_ne.2 h2⟩

theorem not_lf_of_isDig {c : Char} (h : isDig c = true) : (c == '\n') = false := by
  by_cases h1 : c = '\n'
  · subst h1; exact absurd h (by decide)
  · exact beq_eq_false_iff_ne.2 h1

theorem ext_char_props {ext : List Char} (hext : ext ∈ extOptions) :
    ∀ c ∈ ext, isSChar c = false ∧ (c == '\n') = false := by
  simp only [extOptions, List.mem_cons, List.not_mem_nil, or_false] at hext
  rcases hext with rfl | rfl | rfl | rfl <;> decide

theorem mem_epsChain {toks : List (List Char)} {c : Char} (h : c ∈ epsChain toks) :
    c = 'E' ∨ ∃ d ∈ toks, c ∈ d := by
  induction toks with
  | nil => simp [epsChain] at h
  | cons d ds ih =>
    simp only [epsChain, List.cons_append, List.mem_cons, List.mem_append] at h
    rcases h with rfl | h | h
    · exact Or.inl rfl
    · exact Or.inr ⟨d, List.mem_cons_self d ds, h⟩
    · rcases ih h with h1 | ⟨d1, hd1, hc1⟩
      · exact Or.inl h1
      · exact Or.inr ⟨d1, List.mem_cons_of_mem d hd1, hc1⟩

theorem epsChain_length_ge (toks : List (List Char)) : toks.length ≤ (epsChain toks).length := by
  induction toks with
  | nil => simp [epsChain]
  | cons d ds ih => simp only [epsChain, List.length_cons, List.length_append]; omega

/-- All characters after the name split of a canonical output: no `S`/`s`, no
newline. -/
theorem rest1_chars (ss : List Char) (toks : List (List Char)) (rds : List Char) (rc : Char)
    (ext : List Char)
    (hssd : ∀ c ∈ ss, isDig c = true)
    (htokd : ∀ d ∈ toks, d ≠ [] ∧ ∀ c ∈ d, isDig c = true)
    (hrdsd : ∀ c ∈ rds, isDig c = true)
    (hrc : rc = 'p' ∨ rc = 'i')
    (hext : ext ∈ extOptions) :
    ∀ c ∈ ss ++ (epsChain toks ++ ('.' :: ((rds ++ [rc]) ++ '.' :: ext))),
      isSChar c = false ∧ (c == '\n') = false := by
  intro c hc
  simp only [List.mem_append, List.mem_cons] at hc
  rcases hc with hc | hc | rfl | (hc | hc) | rfl | hc
  · exact ⟨not_S_of_isDig (hssd c hc), not_lf_of_isDig (hssd c hc)⟩
  · rcases mem_epsChain hc with rfl | ⟨d, hd, hcd⟩
    · exact ⟨by decide, by decide⟩
    · have := (htokd d hd).2 c hcd
      exact ⟨not_S_of_isDig this, not_lf_of_isDig this⟩
  · exact ⟨by decide, by decide⟩
  · exact ⟨not_S_of_isDig (hrdsd c hc), not_lf_of_isDig (hrdsd c hc)⟩
  · rcases hc with rfl | hc
    · rcases hrc with rfl | rfl <;> exact ⟨by decide, by decide⟩
    · simp at hc
  · exact ⟨by decide, by decide⟩
  · exact ext_char_props hext c hc

/-! ### The canonical output re-matches with the same groups -/

theorem matchSeasonStart_none {fuel : Nat} {l : List Char}
    (h : ∀ c, l.head? = some c → isSChar c = false) :
    matchSeasonStart fuel l = none := by
  cases l with
  | nil => rfl
  | cons c l1 => simp [matchSeasonStart, h c rfl]

theorem matchTail_canonical {ext : List Char} (hext : ext ∈ extOptions) :
    matchTail ('.' :: ext) = some ext := by
  simp only [extOptions, List.mem_cons, List.not_mem_nil, or_false] at hext
  rcases hext with rfl | rfl | rfl | rfl <;> rfl

theorem tryResHere_canonical {rds : List Char} {rc : Char} {ext : List Char}
    (hrds : rds ≠ []) (hrdsd : ∀ c ∈ rds, isDig c = true)
    (hrcR : isResChar rc = true) (hrcD : isDig rc = false) (hext : ext ∈ extOptions) :
    tryResHere (rds ++ rc :: '.' :: ext) = some (rds ++ [rc], ext) := by
  have hrun : digitRunLen (rds ++ rc :: '.' :: ext) = rds.length := by
    apply digitRunLen_append rds _ hrdsd
    intro c hc
    rw [List.head?_cons] at hc
    injection hc with hc
    rw [← hc]
    exact hrcD
  unfold tryResHere
  rw [hrun]
  apply tryKsDesc_top (List.length_pos.mpr hrds)
  rw [List.drop_left, List.take_left]
  simp only [hrcR, if_true, matchTail_canonical hext, Option.map_some']

theorem matchResSearch_canonical {rds : List Char} {rc : Char} {ext : List Char}
    (hrds : rds ≠ []) (hrdsd : ∀ c ∈ rds, isDig c = true)
    (hrc : rc = 'p' ∨ rc = 'i') (hext : ext ∈ extOptions) :
    matchResSearch ('.' :: ((rds ++ [rc]) ++ '.' :: ext)) = some (rds ++ [rc], ext) := by
  have hrcR : isResChar rc = true := by rcases hrc with rfl | rfl <;> decide
  have hrcD : isDig rc = false := by rcases hrc with rfl | rfl <;> decide
  have hassoc : (rds ++ [rc]) ++ '.' :: ext = rds ++ rc :: '.' :: ext := by
    simp [List.append_assoc]
  have h0 : tryResHere ('.' :: ((rds ++ [rc]) ++ '.' :: ext)) = none := by
    unfold tryResHere
    have : digitRunLen ('.' :: ((rds ++ [rc]) ++ '.' :: ext)) = 0 := by
      simp [digitRunLen, isDig]
    rw [this]
    rfl
  rw [matchResSearch, h0]
  simp only [alt]
  rw [if_neg (by decide : ¬((('.' : Char) == '\n') = true))]
  rw [hassoc]
  cases hrds0 : rds with
  | nil => exact absurd hrds0 hrds
  | cons d0 rtl =>
    rw [List.cons_append, matchResSearch, ← List.cons_append, ← hrds0]
    rw [tryResHere_canonical hrds hrdsd hrcR hrcD hext]
    rfl

theorem matchEpsRep_canonical {rds : List Char} {rc : Char} {ext : List Char}
    (hrds : rds ≠ []) (hrdsd : ∀ c ∈ rds, isDig c = true)
    (hrc : rc = 'p' ∨ rc = 'i') (hext : ext ∈ extOptions)
    (toks : List (List Char)) :
    ∀ (fuel : Nat) (acc : List Char),
      (∀ d ∈ toks, d ≠ [] ∧ ∀ c ∈ d, isDig c = true) →
      toks.length < fuel →
      matchEpsRep fuel acc (epsChain toks ++ ('.' :: ((rds ++ [rc]) ++ '.' :: ext)))
        = some (acc ++ epsChain toks, rds ++ [rc], ext) := by
  induction toks with
  | nil =>
    intro fuel acc _ hfuel
    cases fuel with
    | zero => omega
    | succ fuel =>
      simp only [epsChain, List.nil_append, List.append_nil, matchEpsRep]
      rw [matchResSearch_canonical hrds hrdsd hrc hext]
      simp [alt, isEChar]
  | cons d toks1 ih =>
    intro fuel acc htokd hfuel
    cases fuel with
    | zero => omega
    | succ fuel =>
      obtain ⟨hd_ne, hd_dig⟩ := htokd d (List.mem_cons_self d toks1)
      have hshape : epsChain (d :: toks1) ++ ('.' :: ((rds ++ [rc]) ++ '.' :: ext))
          = 'E' :: (d ++ (epsChain toks1 ++ ('.' :: ((rds ++ [rc]) ++ '.' :: ext)))) := by
        simp [epsChain, List.append_assoc]
      rw [hshape]
      have hhead : ∀ c, (epsChain toks1 ++ ('.' :: ((rds ++ [rc]) ++ '.' :: ext))).head? = some c →
          isDig c = false := by
        cases toks1 with
        | nil =>
          intro c hc
          simp only [epsChain, List.nil_append, List.head?_cons] at hc
          injection hc with hc
          rw [← hc]
          decide
        | cons d1 r1 =>
          intro c hc
          simp only [epsChain, List.cons_append, List.head?_cons] at hc
          injection hc with hc
          rw [← hc]
          decide
      have hrun : digitRunLen (d ++ (epsChain toks1 ++ ('.' :: ((rds ++ [rc]) ++ '.' :: ext))))
          = d.length := digitRunLen_append d _ hd_dig hhead
      rw [matchEpsRep]
      have hbranch :
          tryKsDesc (fun k => matchEpsRep fuel (acc ++ 'E' ::
              (d ++ (epsChain toks1 ++ ('.' :: ((rds ++ [rc]) ++ '.' :: ext)))).take k)
              ((d ++ (epsChain toks1 ++ ('.' :: ((rds ++ [rc]) ++ '.' :: ext)))).drop k))
            (digitRunLen (d ++ (epsChain toks1 ++ ('.' :: ((rds ++ [rc]) ++ '.' :: ext)))))
          = some (acc ++ epsChain (d :: toks1), rds ++ [rc], ext) := by
        rw [hrun]
        apply tryKsDesc_top (List.length_pos.mpr hd_ne)
        rw [List.take_left, List.drop_left]
        rw [ih fuel (acc ++ 'E' :: d) (fun x hx => htokd x (List.mem_cons_of_mem d hx)) (by
          simp only [List.length_cons] at hfuel
          omega)]
        simp [epsChain, List.append_assoc]
      simp only [isEChar]
      rw [if_pos (by decide : ((('E' : Char) == 'E' || ('E' : Char) == 'e') = true))]
      rw [hbranch]
      rfl

theorem matchEpisodesStart_canonical {rds : List Char} {rc : Char} {ext : List Char}
    (hrds : rds ≠ []) (hrdsd : ∀ c ∈ rds, isDig c = true)
    (hrc : rc = 'p' ∨ rc = 'i') (hext : ext ∈ extOptions)
    (d : List Char) (toks1 : List (List Char)) (fuel : Nat)
    (htokd : ∀ x ∈ d :: toks1, x ≠ [] ∧ ∀ c ∈ x, isDig c = true)
    (hfuel : toks1.length < fuel) :
    matchEpisodesStart fuel (epsChain (d :: toks1) ++ ('.' :: ((rds ++ [rc]) ++ '.' :: ext)))
      = some (epsChain (d :: toks1), rds ++ [rc], ext) := by
  obtain ⟨hd_ne, hd_dig⟩ := htokd d (List.mem_cons_self d toks1)
  have hshape : epsChain (d :: toks1) ++ ('.' :: ((rds ++ [rc]) ++ '.' :: ext))
      = 'E' :: (d ++ (epsChain toks1 ++ ('.' :: ((rds ++ [rc]) ++ '.' :: ext)))) := by
    simp [epsChain, List.append_assoc]
  rw [hshape]
  have hhead : ∀ c, (epsChain toks1 ++ ('.' :: ((rds ++ [rc]) ++ '.' :: ext))).head? = some c →
      isDig c = false := by
    cases toks1 with
    | nil =>
      intro c hc
      simp only [epsChain, List.nil_append, List.head?_cons] at hc
      injection hc with hc
      rw [← hc]
      decide
    | cons d1 r1 =>
      intro c hc
      simp only [epsChain, List.cons_append, List.head?_cons] at hc
      injection hc with hc
      rw [← hc]
      decide
  have hrun : digitRunLen (d ++ (epsChain toks1 ++ ('.' :: ((rds ++ [rc]) ++ '.' :: ext))))
      = d.length := digitRunLen_append d _ hd_dig hhead
  rw [matchEpisodesStart]
  simp only [isEChar]
  rw [if_pos (by decide : ((('E' : Char) == 'E' || ('E' : Char) == 'e') = true))]
  rw [hrun]
  apply tryKsDesc_top (List.length_pos.mpr hd_ne)
  rw [List.take_left, List.drop_left]
  rw [matchEpsRep_canonical hrds hrdsd hrc hext toks1 fuel ('E' :: d)
    (fun x hx => htokd x (List.mem_cons_of_mem d hx)) hfuel]
  simp [epsChain, List.append_assoc]

theorem episodeNameMatch_canonical
    (nm ss : List Char) (toks : List (List Char)) (rds : List Char) (rc : Char) (ext : List Char)
    (hnm : ∀ c ∈ nm, (c == '\n') = false)
    (hss : ss ≠ []) (hssd : ∀ c ∈ ss, isDig c = true)
    (htoks : toks ≠ []) (htokd : ∀ d ∈ toks, d ≠ [] ∧ ∀ c ∈ d, isDig c = true)
    (hrds : rds ≠ []) (hrdsd : ∀ c ∈ rds, isDig c = true) (hrc : rc = 'p' ∨ rc = 'i')
    (hext : ext ∈ extOptions) :
    episodeNameMatchL (canonicalOut nm ss (epsChain toks) (rds ++ [rc]) ext)
      = some ⟨nm ++ ['.'], ss, epsChain toks, rds ++ [rc], ext⟩ := by
  have hrest := rest1_chars ss toks rds rc ext hssd htokd hrdsd hrc hext
  have ht : canonicalOut nm ss (epsChain toks) (rds ++ [rc]) ext
      = (nm ++ ['.']) ++ 'S' :: (ss ++ (epsChain toks ++ ('.' :: ((rds ++ [rc]) ++ '.' :: ext)))) := by
    simp [canonicalOut, List.append_assoc]
  set rest1 := ss ++ (epsChain toks ++ ('.' :: ((rds ++ [rc]) ++ '.' :: ext))) with hrest1
  have hlf : ∀ c ∈ canonicalOut nm ss (epsChain toks) (rds ++ [rc]) ext, (c == '\n') = false := by
    intro c hc
    rw [ht] at hc
    simp only [List.mem_append, List.mem_cons, List.not_mem_nil, or_false] at hc
    rcases hc with (hc | rfl) | rfl | hc
    · exact hnm c hc
    · decide
    · decide
    · exact (hrest c hc).2
  unfold episodeNameMatchL
  rw [noLfLen_eq_length hlf]
  have hlen : nm.length + 1 ≤ (canonicalOut nm ss (epsChain toks) (rds ++ [rc]) ext).length := by
    rw [ht]
    simp only [List.length_append, List.length_cons, List.length_singleton]
    omega
  have hPlen : (nm ++ ['.']).length = nm.length + 1 := by
    simp
  have hnone : ∀ m, nm.length + 1 < m →
      ((matchSeasonStart ((canonicalOut nm ss (epsChain toks) (rds ++ [rc]) ext).length + 1)
          ((canonicalOut nm ss (epsChain toks) (rds ++ [rc]) ext).drop m)).map
        (fun t => EpGroups.mk ((canonicalOut nm ss (epsChain toks) (rds ++ [rc]) ext).take m)
          t.1 t.2.1 t.2.2.1 t.2.2.2)) = none := by
    intro m hm
    rw [Option.map_eq_none']
    obtain ⟨j, hj⟩ : ∃ j, m = (nm ++ ['.']).length + (j + 1) :=
      ⟨m - (nm.length + 2), by rw [hPlen]; omega⟩
    have hdrop : (canonicalOut nm ss (epsChain toks) (rds ++ [rc]) ext).drop m
        = rest1.drop j := by
      rw [ht, hj, List.drop_append, List.drop_succ_cons]
    rw [hdrop]
    apply matchSeasonStart_none
    intro c hc
    have hmem : c ∈ rest1 := by
      cases hcase : rest1.drop j with
      | nil => rw [hcase] at hc; simp at hc
      | cons a r =>
        rw [hcase] at hc
        rw [List.head?_cons] at hc
        injection hc with hc
        subst hc
        exact List.mem_of_mem_drop (hcase ▸ List.mem_cons_self a r)
    exact (hrest c hmem).1
  rw [tryNsDesc_skip hlen hnone]
  apply tryNsDesc_of_eq_some
  have hdropP : (canonicalOut nm ss (epsChain toks) (rds ++ [rc]) ext).drop (nm.length + 1)
      = 'S' :: rest1 := by
    rw [ht, ← hPlen, List.drop_left]
  have htakeP : (canonicalOut nm ss (epsChain toks) (rds ++ [rc]) ext).take (nm.length + 1)
      = nm ++ ['.'] := by
    rw [ht, ← hPlen, List.take_left]
  rw [hdropP, htakeP]
  cases htoks0 : toks with
  | nil => exact absurd htoks0 htoks
  | cons d toks1 =>
    have hheadE : ∀ c, (epsChain toks ++ ('.' :: ((rds ++ [rc]) ++ '.' :: ext))).head? = some c →
        isDig c = false := by
      rw [htoks0]
      intro c hc
      simp only [epsChain, List.cons_append, List.head?_cons] at hc
      injection hc with hc
      rw [← hc]
      decide
    have hrun1 : digitRunLen rest1 = ss.length := by
      rw [hrest1]
      exact digitRunLen_append ss _ hssd hheadE
    have hfuel1 : toks1.length < (canonicalOut nm ss (epsChain toks) (rds ++ [rc]) ext).length + 1 := by
      have h1 : toks.length ≤ (epsChain toks).length := epsChain_length_ge toks
      have h2 : (epsChain toks).length ≤
          (canonicalOut nm ss (epsChain toks) (rds ++ [rc]) ext).length := by
        rw [ht, hrest1]
        simp only [List.length_append, List.length_cons]
        omega
      have h3 : toks.length = toks1.length + 1 := by
        rw [htoks0]
        rfl
      omega
    have hms : matchSeasonStart ((canonicalOut nm ss (epsChain toks) (rds ++ [rc]) ext).length + 1)
        ('S' :: rest1) = some (ss, epsChain toks, rds ++ [rc], ext) := by
      rw [matchSeasonStart]
      simp only [isSChar]
      rw [if_pos (by decide : ((('S' : Char) == 'S' || ('S' : Char) == 's') = true))]
      rw [hrun1]
      apply tryKsDesc_top (List.length_pos.mpr hss)
      rw [hrest1, List.take_left, List.drop_left]
      conv in epsChain toks ++ _ => rw [htoks0]
      rw [matchEpisodesStart_canonical hrds hrdsd hrc hext d toks1 _ (htoks0 ▸ htokd) hfuel1]
      rw [htoks0]
      rfl
    rw [htoks0] at hms
    rw [hms]
    rfl

/-! ### How `normalize` computes on a canonical input -/

theorem map_id_of_forall {α : Type} {l : List α} {f : α → α} (h : ∀ c ∈ l, f c = c) :
    l.map f = l := by
  induction l with
  | nil => rfl
  | cons a l ih =>
    rw [List.map_cons, h a (List.mem_cons_self a l),
      ih (fun c hc => h c (List.mem_cons_of_mem a hc))]

theorem head_dropWhile_false (p : Char → Bool) (l : List Char) :
    ∀ c, (l.dropWhile p).head? = some c → p c = false := by
  induction l with
  | nil => simp
  | cons a l ih =>
    intro c hc
    rw [List.dropWhile_cons] at hc
    split at hc
    · exact ih c hc
    next hp =>
      rw [List.head?_cons] at hc
      injection hc with hc
      subst hc
      simpa using hp

theorem mem_stripDotSpace {l : List Char} {c : Char} (h : c ∈ stripDotSpace l) : c ∈ l := by
  unfold stripDotSpace at h
  rw [List.mem_reverse] at h
  have h1 := (List.dropWhile_suffix isStripCh).sublist.subset h
  rw [List.mem_reverse] at h1
  exact (List.dropWhile_suffix isStripCh).sublist.subset h1

theorem stripDotSpace_head (l : List Char) :
    ∀ c, (stripDotSpace l).head? = some c → isStripCh c = false := by
  intro c hc
  unfold stripDotSpace at hc
  rw [List.head?_reverse] at hc
  obtain ⟨pre, hpre⟩ := List.dropWhile_suffix (l := (l.dropWhile isStripCh).reverse) isStripCh
  have hne : ((l.dropWhile isStripCh).reverse.dropWhile isStripCh) ≠ [] := by
    intro h0
    rw [h0] at hc
    simp at hc
  have h2 : (l.dropWhile isStripCh).reverse.getLast? = some c := by
    rw [← hpre, List.getLast?_append_of_ne_nil pre hne]
    exact hc
  rw [List.getLast?_reverse] at h2
  exact head_dropWhile_false isStripCh l c h2

theorem stripDotSpace_last (l : List Char) :
    ∀ c, (stripDotSpace l).getLast? = some c → isStripCh c = false := by
  intro c hc
  unfold stripDotSpace at hc
  rw [List.getLast?_reverse] at hc
  exact head_dropWhile_false isStripCh (l.dropWhile isStripCh).reverse c hc

theorem dropWhile_eq_self_of_head {l : List Char} {p : Char → Bool}
    (h : ∀ c, l.head? = some c → p c = false) : l.dropWhile p = l := by
  cases l with
  | nil => rfl
  | cons a r =>
    rw [List.dropWhile_cons, if_neg]
    rw [h a rfl]
    simp

theorem stripDotSpace_eq_self {l : List Char}
    (h1 : ∀ c, l.head? = some c → isStripCh c = false)
    (h2 : ∀ c, l.getLast? = some c → isStripCh c = false) :
    stripDotSpace l = l := by
  unfold stripDotSpace
  rw [dropWhile_eq_self_of_head h1]
  rw [dropWhile_eq_self_of_head (fun c hc => h2 c (by rwa [List.head?_reverse] at hc))]
  exact List.reverse_reverse l

theorem stripDotSpace_append_dot (l : List Char) :
    stripDotSpace (l ++ ['.']) = stripDotSpace l := by
  unfold stripDotSpace
  rw [List.dropWhile_append]
  split
  next hemp =>
    -- the whole of l is stripped; what remains is ['.'], also stripped
    have : l.dropWhile isStripCh = [] := by
      cases h : l.dropWhile isStripCh with
      | nil => rfl
      | cons a r => rw [h] at hemp; simp at hemp
    rw [this]
    rfl
  next =>
    rw [List.reverse_append]
    rfl

theorem spaceToDot_not_space (c : Char) : (spaceToDot c == ' ') = false := by
  unfold spaceToDot
  split
  · decide
  next h => simpa using h

theorem spaceToDot_not_strip {c : Char} (h : isStripCh c = false) :
    isStripCh (spaceToDot c) = false := by
  unfold spaceToDot
  split
  next hsp =>
    rw [show c = ' ' from by simpa using hsp] at h
    exact absurd h (by decide)
  next => exact h

theorem padTwo_length {l : List Char} (h : l ≠ []) : 2 ≤ (padTwo l).length := by
  unfold padTwo
  split
  next hlen =>
    have h1 : l.length = 1 := by simpa using hlen
    simp [h1]
  next hlen =>
    have h1 : l.length ≠ 1 := by simpa using hlen
    have h2 : l.length ≠ 0 := by simpa using h
    omega

theorem padTwo_digits {l : List Char} (h : ∀ c ∈ l, isDig c = true) :
    ∀ c ∈ padTwo l, isDig c = true := by
  unfold padTwo
  split
  · intro c hc
    rcases List.mem_cons.1 hc with rfl | hc
    · decide
    · exact h c hc
  · exact h

theorem padTwo_ne_nil {l : List Char} (h : l ≠ []) : padTwo l ≠ [] := by
  unfold padTwo
  split
  · simp
  · exact h

theorem padTwo_eq_self {l : List Char} (h : 2 ≤ l.length) : padTwo l = l := by
  unfold padTwo
  rw [if_neg]
  simp only [beq_iff_eq]
  omega

theorem epsBuild_go (toks : List (List Char)) :
    ∀ acc, toks.foldl (fun acc ep => acc ++ 'E' :: padTwo ep) acc
      = acc ++ epsChain (toks.map padTwo) := by
  induction toks with
  | nil => intro acc; simp [epsChain]
  | cons d ds ih =>
    intro acc
    rw [List.foldl_cons, ih, List.map_cons]
    simp [epsChain, List.append_assoc]

theorem epsBuild_eq (toks : List (List Char)) : epsBuild toks = epsChain (toks.map padTwo) := by
  unfold epsBuild
  rw [epsBuild_go]
  rfl

theorem finditerEp_tokens {fuel : Nat} {l : List Char} :
    ∀ d ∈ finditerEp fuel l, d ≠ [] ∧ ∀ c ∈ d, isDig c = true := by
  induction fuel generalizing l with
  | zero => simp [finditerEp]
  | succ fuel ih =>
    cases l with
    | nil => simp [finditerEp]
    | cons a r =>
      rw [finditerEp]
      split
      next hcond =>
        intro d hd
        rcases List.mem_cons.1 hd with rfl | hd
        · constructor
          · have hrun : digitRunLen r ≠ 0 := by
              rw [Bool.and_eq_true] at hcond
              simpa using hcond.2
            have hle := digitRunLen_le_length r
            intro hnil
            have : (r.take (digitRunLen r)).length = digitRunLen r := by
              rw [List.length_take]
              omega
            rw [hnil] at this
            simp at this
            omega
          · exact take_isDig_of_le_digitRunLen (Nat.le_refl _)
        · exact ih d hd
      next =>
        exact ih

theorem digitRunLen_all {l : List Char} (h : ∀ c ∈ l, isDig c = true) :
    digitRunLen l = l.length := by
  induction l with
  | nil => rfl
  | cons a r ih =>
    simp only [digitRunLen, h a (List.mem_cons_self a r), if_true, List.length_cons]
    rw [ih (fun c hc => h c (List.mem_cons_of_mem a hc))]

theorem finditerEp_canonical (toks : List (List Char)) :
    ∀ fuel : Nat,
      (∀ d ∈ toks, d ≠ [] ∧ ∀ c ∈ d, isDig c = true) →
      (epsChain toks).length < fuel →
      finditerEp fuel (epsChain toks) = toks := by
  induction toks with
  | nil =>
    intro fuel _ hfuel
    cases fuel with
    | zero => omega
    | succ fuel => rfl
  | cons d toks1 ih =>
    intro fuel htokd hfuel
    obtain ⟨hd_ne, hd_dig⟩ := htokd d (List.mem_cons_self d toks1)
    have hhead : ∀ c, (epsChain toks1).head? = some c → isDig c = false := by
      cases toks1 with
      | nil => simp [epsChain]
      | cons d1 r1 =>
        intro c hc
        simp only [epsChain, List.cons_append, List.head?_cons] at hc
        injection hc with hc
        rw [← hc]
        decide
    have hrun : digitRunLen (d ++ epsChain toks1) = d.length :=
      digitRunLen_append d _ hd_dig hhead
    have hlen1 : (epsChain (d :: toks1)).length = 1 + d.length + (epsChain toks1).length := by
      simp only [epsChain, List.cons_append, List.length_cons, List.length_append]
      omega
    cases fuel with
    | zero => omega
    | succ fuel =>
      have hshape : epsChain (d :: toks1) = 'E' :: (d ++ epsChain toks1) := by
        simp [epsChain]
      rw [hshape, finditerEp]
      rw [if_pos (by
        rw [hrun]
        have : d.length ≠ 0 := by
          intro h0
          exact hd_ne (List.length_eq_zero.1 h0)
        simp [isEChar, this])]
      rw [hrun, List.take_left, List.drop_left]
      rw [ih fuel (fun x hx => htokd x (List.mem_cons_of_mem d hx)) (by
        rw [hlen1] at hfuel
        have h1 : 1 ≤ d.length := List.length_pos.mpr hd_ne
        omega)]

theorem ruToP_digit {c : Char} (h : isDig c = true) : ruToP c = c := by
  unfold ruToP
  rw [if_neg]
  intro hc
  rw [show c = 'р' from by simpa using hc] at h
  exact absurd h (by decide)

theorem isResChar_cases {c : Char} (h : isResChar c = true) : c = 'p' ∨ c = 'р' ∨ c = 'i' := by
  simp only [isResChar, Bool.or_eq_true, beq_iff_eq] at h
  tauto

/-- `normalize` maps a canonical output to itself. -/
theorem normalizeL_canonical
    (prompt nm ss : List Char) (toks : List (List Char)) (rds : List Char) (rc : Char)
    (ext : List Char)
    (hnm : ∀ c ∈ nm, (c == '\n') = false)
    (hnmsp : ∀ c ∈ nm, (c == ' ') = false)
    (hnmS : stripDotSpace nm = nm)
    (hss : ss ≠ []) (hssd : ∀ c ∈ ss, isDig c = true) (hss2 : 2 ≤ ss.length)
    (htoks : toks ≠ []) (htokd : ∀ d ∈ toks, d ≠ [] ∧ ∀ c ∈ d, isDig c = true)
    (htok2 : ∀ d ∈ toks, 2 ≤ d.length)
    (hrds : rds ≠ []) (hrdsd : ∀ c ∈ rds, isDig c = true) (hrc : rc = 'p' ∨ rc = 'i')
    (hext : ext ∈ extOptions) :
    normalizeL prompt (canonicalOut nm ss (epsChain toks) (rds ++ [rc]) ext)
      = some (canonicalOut nm ss (epsChain toks) (rds ++ [rc]) ext) := by
  unfold normalizeL
  rw [episodeNameMatch_canonical nm ss toks rds rc ext hnm hss hssd htoks htokd hrds hrdsd hrc hext]
  have hshow : (stripDotSpace (nm ++ ['.'])).map spaceToDot = nm := by
    rw [stripDotSpace_append_dot, hnmS]
    exact map_id_of_forall (fun c hc => by
      unfold spaceToDot
      rw [if_neg]
      rw [hnmsp c hc]
      simp)
  have hpadss : padTwo ss = ss := padTwo_eq_self hss2
  have heps : epsBuild (finditerEp ((epsChain toks).length + 1) (epsChain toks))
      = epsChain toks := by
    rw [finditerEp_canonical toks _ htokd (Nat.lt_succ_self _), epsBuild_eq,
      map_id_of_forall (fun d hd => padTwo_eq_self (htok2 d hd))]
  have hresne : ((rds ++ [rc]) == ([] : List Char)) = false := by
    rw [beq_eq_false_iff_ne]
    simp
  have hresmap : (rds ++ [rc]).map ruToP = rds ++ [rc] := by
    rw [List.map_append, map_id_of_forall (fun c hc => ruToP_digit (hrdsd c hc))]
    rcases hrc with rfl | rfl <;> rfl
  show some ((stripDotSpace (nm ++ ['.'])).map spaceToDot ++ '.' :: 'S' ::
      (padTwo ss ++ epsBuild (finditerEp ((epsChain toks).length + 1) (epsChain toks))) ++ '.'
      :: ((if (rds ++ [rc]) == ([] : List Char) then
            (if endsWithP prompt then prompt else prompt ++ ['p'])
          else (rds ++ [rc]).map ruToP) ++ '.' :: ext))
    = some (canonicalOut nm ss (epsChain toks) (rds ++ [rc]) ext)
  rw [hshow, hpadss, heps, hresne]
  simp only [Bool.false_eq_true, if_false]
  rw [hresmap]
  rfl

theorem finditerEp_ne_nil {eps : List Char} (h : EpsShape eps) :
    finditerEp (eps.length + 1) eps ≠ [] := by
  obtain ⟨c, d, suf, rfl, hc, hd⟩ := h
  simp only [List.length_cons]
  rw [finditerEp]
  rw [if_pos (by
    rw [Bool.and_eq_true]
    refine ⟨hc, ?_⟩
    simp [digitRunLen, hd])]
  simp

/-- `normalize`'s output always re-matches and re-normalizes to itself. -/
theorem normalizeL_idem {s t : List Char} (h : normalizeL [] s = some t) :
    normalizeL [] t = some t := by
  unfold normalizeL at h
  cases hmatch : episodeNameMatchL s with
  | none => rw [hmatch] at h; exact absurd h (by simp)
  | some g =>
    rw [hmatch] at h
    have hbig : normalizeG [] g = t := Option.some.inj h
    obtain ⟨hname, ⟨hssne, hssd⟩, hepsS, hresS, hext⟩ := episodeNameMatchL_spec hmatch
    obtain ⟨ds, c0, hres0, hdsne, hdsd, hc0⟩ := hresS
    have hG : normalizeG [] g
        = canonicalOut ((stripDotSpace g.name).map spaceToDot) (padTwo g.season)
            (epsChain ((finditerEp (g.episodes.length + 1) g.episodes).map padTwo))
            (ds ++ [ruToP c0]) g.extension := by
      show ((stripDotSpace g.name).map spaceToDot) ++ '.' :: 'S'
          :: (padTwo g.season ++ epsBuild (finditerEp (g.episodes.length + 1) g.episodes)) ++ '.'
          :: ((if g.resolution == ([] : List Char) then (if endsWithP [] then [] else [] ++ ['p'])
              else g.resolution.map ruToP) ++ '.' :: g.extension)
        = _
      rw [epsBuild_eq]
      have hne : (g.resolution == ([] : List Char)) = false := by
        rw [beq_eq_false_iff_ne, hres0]
        simp
      rw [hne]
      simp only [Bool.false_eq_true, if_false]
      rw [hres0, List.map_append, map_id_of_forall (fun c hc => ruToP_digit (hdsd c hc))]
      rfl
    have hnm1 : ∀ c ∈ (stripDotSpace g.name).map spaceToDot, (c == '\n') = false := by
      intro c hc
      rw [List.mem_map] at hc
      obtain ⟨c1, hc1, rfl⟩ := hc
      have hlf1 : (c1 == '\n') = false := hname c1 (mem_stripDotSpace hc1)
      unfold spaceToDot
      split
      · decide
      · exact hlf1
    have hnm2 : ∀ c ∈ (stripDotSpace g.name).map spaceToDot, (c == ' ') = false := by
      intro c hc
      rw [List.mem_map] at hc
      obtain ⟨c1, _, rfl⟩ := hc
      exact spaceToDot_not_space c1
    have hnm3 : stripDotSpace ((stripDotSpace g.name).map spaceToDot)
        = (stripDotSpace g.name).map spaceToDot := by
      apply stripDotSpace_eq_self
      · intro c hc
        rw [List.head?_map] at hc
        cases hy : (stripDotSpace g.name).head? with
        | none => rw [hy] at hc; simp at hc
        | some c1 =>
          rw [hy] at hc
          simp only [Option.map_some'] at hc
          injection hc with hc
          rw [← hc]
          exact spaceToDot_not_strip (stripDotSpace_head g.name c1 hy)
      · intro c hc
        rw [List.getLast?_map] at hc
        cases hy : (stripDotSpace g.name).getLast? with
        | none => rw [hy] at hc; simp at hc
        | some c1 =>
          rw [hy] at hc
          simp only [Option.map_some'] at hc
          injection hc with hc
          rw [← hc]
          exact spaceToDot_not_strip (stripDotSpace_last g.name c1 hy)
    have htk1 : (finditerEp (g.episodes.length + 1) g.episodes).map padTwo ≠ [] := by
      intro h0
      exact finditerEp_ne_nil hepsS (List.map_eq_nil_iff.1 h0)
    have htk2 : ∀ d ∈ (finditerEp (g.episodes.length + 1) g.episodes).map padTwo,
        d ≠ [] ∧ ∀ c ∈ d, isDig c = true := by
      intro d hd
      rw [List.mem_map] at hd
      obtain ⟨d1, hd1, rfl⟩ := hd
      obtain ⟨hd1ne, hd1dig⟩ := finditerEp_tokens d1 hd1
      exact ⟨padTwo_ne_nil hd1ne, padTwo_digits hd1dig⟩
    have htk3 : ∀ d ∈ (finditerEp (g.episodes.length + 1) g.episodes).map padTwo,
        2 ≤ d.length := by
      intro d hd
      rw [List.mem_map] at hd
      obtain ⟨d1, hd1, rfl⟩ := hd
      exact padTwo_length (finditerEp_tokens d1 hd1).1
    have hrc1 : ruToP c0 = 'p' ∨ ruToP c0 = 'i' := by
      rcases isResChar_cases hc0 with rfl | rfl | rfl
      · exact Or.inl rfl
      · exact Or.inl rfl
      · exact Or.inr rfl
    rw [← hbig, hG]
    exact normalizeL_canonical [] _ _ _ _ _ _ hnm1 hnm2 hnm3 (padTwo_ne_nil hssne)
      (padTwo_digits hssd) (padTwo_length hssne) htk1 htk2 htk3 hdsne hdsd hrc1 hext

/-! ### Decimal formatting lemmas -/

theorem decDigit_isDig (n : Nat) : isDig (decDigit n) = true := by
  rcases n with _|_|_|_|_|_|_|_|_|n <;> rfl

theorem decDigit_val {n : Nat} (h : n < 10) : digVal (decDigit n) = n := by
  rcases n with _|_|_|_|_|_|_|_|_|n
  · rfl
  · rfl
  · rfl
  · rfl
  · rfl
  · rfl
  · rfl
  · rfl
  · rfl
  · have h0 : n = 0 := by omega
    subst h0
    rfl

theorem decValue_append_digit (l : List Char) (c : Char) :
    decValue (l ++ [c]) = decValue l * 10 + digVal c := by
  unfold decValue
  rw [List.foldl_append]
  rfl

theorem decDigitsAux_spec : ∀ fuel n, n < fuel →
    decDigitsAux fuel n ≠ [] ∧ (∀ c ∈ decDigitsAux fuel n, isDig c = true) ∧
      decValue (decDigitsAux fuel n) = n := by
  intro fuel
  induction fuel with
  | zero => intro n h; omega
  | succ fuel ih =>
    intro n h
    rw [decDigitsAux]
    split
    next hlt =>
      refine ⟨by simp, ?_, ?_⟩
      · intro c hc
        rw [List.mem_singleton] at hc
        subst hc
        exact decDigit_isDig n
      · show decValue [decDigit n] = n
        unfold decValue
        simp only [List.foldl_cons, List.foldl_nil]
        rw [Nat.zero_mul, Nat.zero_add]
        exact decDigit_val hlt
    next hge =>
      have h10 : 10 ≤ n := by omega
      have hdiv : n / 10 < fuel := by
        have := Nat.div_lt_self (by omega : 0 < n) (by omega : 1 < 10)
        omega
      obtain ⟨ih1, ih2, ih3⟩ := ih (n / 10) hdiv
      refine ⟨by simp, ?_, ?_⟩
      · intro c hc
        rw [List.mem_append] at hc
        rcases hc with hc | hc
        · exact ih2 c hc
        · rw [List.mem_singleton] at hc
          subst hc
          exact decDigit_isDig _
      · rw [decValue_append_digit, ih3, decDigit_val (Nat.mod_lt n (by omega))]
        omega

theorem natDecDigits_spec (n : Nat) :
    natDecDigits n ≠ [] ∧ (∀ c ∈ natDecDigits n, isDig c = true) ∧
      decValue (natDecDigits n) = n :=
  decDigitsAux_spec (n + 1) n (Nat.lt_succ_self n)

/-! ### Resolution label lemmas -/

theorem bucketLabel_eq_specBucket (h : Nat) : bucketLabel h = specBucket h := by
  unfold bucketLabel specBucket
  rfl

theorem bucketLabel_isDigitsP (h : Nat) : isDigitsP (bucketLabel h).data = true := by
  unfold bucketLabel
  split
  · decide
  split
  · decide
  split
  · decide
  split
  · decide
  obtain ⟨hne, hdig, _⟩ := natDecDigits_spec h
  show isDigitsP ((String.mk (natDecDigits h) ++ "p").data) = true
  rw [String.data_append]
  show isDigitsP (natDecDigits h ++ ['p']) = true
  unfold isDigitsP
  rw [List.dropLast_concat, List.getLast?_concat]
  rw [List.all_eq_true.2 hdig]
  cases hd : natDecDigits h with
  | nil => exact absurd hd hne
  | cons a r => rfl

theorem endsWithP_getLast {l : List Char} (h : endsWithP l = true) : l.getLast? = some 'p' := by
  unfold endsWithP at h
  cases hl : l.getLast? with
  | none => rw [hl] at h; simp at h
  | some c =>
    rw [hl] at h
    have hc : c = 'p' := by simpa using h
    rw [hc]

theorem resolutionFromPattern_ends_p {m : PyMatchG} {rg : Option GroupId} {r : String}
    (h : resolutionFromPattern m rg = some r) : r.data.getLast? = some 'p' := by
  cases rg with
  | none => simp [resolutionFromPattern] at h
  | some g =>
    simp only [resolutionFromPattern] at h
    split at h
    next rs heq =>
      split at h
      · exact absurd h (by simp)
      · injection h with h
        subst h
        split
        next hp => exact endsWithP_getLast hp
        next =>
          rw [String.data_append]
          exact List.getLast?_concat _
    next => exact absurd h (by simp)

theorem parseEpisodeInfo_resolution {pats : List EpisodePattern} {fn : String} {sd : Option Int}
    {info : EpisodeInfo} {r : String}
    (h : parseEpisodeInfo pats fn sd = .ok (some info)) (hr : info.resolution = some r) :
    r.data.getLast? = some 'p' := by
  induction pats with
  | nil => simp [parseEpisodeInfo] at h
  | cons p ps ih =>
    simp only [parseEpisodeInfo] at h
    split at h
    · exact ih h
    · split at h
      · exact absurd h (by simp)
      · split at h
        · exact ih h
        · split at h
          · exact ih h
          · exact absurd h (by simp)
          · split at h
            · exact absurd h (by simp)
            · split at h
              · exact ih h
              · injection h with h
                injection h with h
                rw [← h] at hr
                simp only at hr
                exact resolutionFromPattern_ends_p hr

theorem pyFmt02_nonneg {n : Int} (h : 0 ≤ n) :
    2 ≤ (pyFmt02 n).length ∧ (pyFmt02 n).data.all isDig = true ∧
      (decValue (pyFmt02 n).data : Int) = n := by
  obtain ⟨hLne, hLdig, hLval⟩ := natDecDigits_spec n.natAbs
  have hneg : ¬ (n < 0) := by omega
  have hlenne : (natDecDigits n.natAbs).length ≠ 0 :=
    fun h0 => hLne (List.length_eq_zero.1 h0)
  have hcast : ((n.natAbs : Int)) = n := Int.natAbs_of_nonneg h
  have hfmt : pyFmt02 n
      = (if (("" ++ String.mk (natDecDigits n.natAbs)).length < 2)
          then "0" ++ ("" ++ String.mk (natDecDigits n.natAbs))
          else ("" ++ String.mk (natDecDigits n.natAbs))) := by
    unfold pyFmt02
    rw [if_neg hneg]
  have hsdata : (("" : String) ++ String.mk (natDecDigits n.natAbs)).data
      = natDecDigits n.natAbs := by
    rw [String.data_append]
    rfl
  rw [hfmt]
  split
  next hlt =>
    have hdata2 : (("0" : String) ++ ("" ++ String.mk (natDecDigits n.natAbs))).data
        = '0' :: natDecDigits n.natAbs := by
      rw [String.data_append, hsdata]
      rfl
    refine ⟨?_, ?_, ?_⟩
    · show 2 ≤ (("0" : String) ++ ("" ++ String.mk (natDecDigits n.natAbs))).data.length
      rw [hdata2]
      simp only [List.length_cons]
      omega
    · rw [hdata2]
      simp only [List.all_cons, Bool.and_eq_true]
      exact ⟨by decide, List.all_eq_true.2 hLdig⟩
    · rw [hdata2]
      have hzero : decValue ('0' :: natDecDigits n.natAbs) = decValue (natDecDigits n.natAbs) := rfl
      rw [hzero, hLval, hcast]
  next hge =>
    refine ⟨?_, ?_, ?_⟩
    · show 2 ≤ (("" : String) ++ String.mk (natDecDigits n.natAbs)).data.length
      rw [hsdata]
      have hslen : (("" : String) ++ String.mk (natDecDigits n.natAbs)).length
          = (natDecDigits n.natAbs).length := by
        show (("" : String) ++ String.mk (natDecDigits n.natAbs)).data.length = _
        rw [hsdata]
      rw [hslen] at hge
      omega
    · rw [hsdata]
      exact List.all_eq_true.2 hLdig
    · rw [hsdata, hLval, hcast]

/-- The probe's bucketing agrees with the spec's bucketing table. -/
theorem getResolutionFromMkvinfo_bucket {out : String} {h : Nat}
    (hp : probeHeightL out.data = some h) :
    getResolutionFromMkvinfo (some out) = some (specBucket h) := by
  show Option.map bucketLabel (probeHeightL out.data) = some (specBucket h)
  rw [hp, Option.map_some', bucketLabel_eq_specBucket]

/-! ### The season resolution chain (claim about rename_files_in_season) -/

theorem renamesOfFs_append (a b : List FsEvent) :
    renamesOfFs (a ++ b) = renamesOfFs a ++ renamesOfFs b :=
  List.filterMap_append a b _

theorem seasonSkippedIn_append (a b : List FsEvent) :
    seasonSkippedIn (a ++ b) = (seasonSkippedIn a || seasonSkippedIn b) :=
  List.any_append

theorem seasonCollect_shape {parse : String → Except PyErr (Option EpisodeInfo)} :
    ∀ {fs : List FileEnt} {ev : List FsEvent} {l : List (String × EpisodeInfo)},
      seasonCollect parse fs = .ok (ev, l) →
      renamesOfFs ev = [] ∧ seasonSkippedIn ev = false := by
  intro fs
  induction fs with
  | nil =>
    intro ev l h
    injection h with h
    injection h with h1 h2
    rw [← h1]
    exact ⟨rfl, rfl⟩
  | cons f fs ih =>
    intro ev l h
    simp only [seasonCollect] at h
    split at h
    · exact ih h
    · split at h
      · exact absurd h (by simp)
      · split at h
        · exact absurd h (by simp)
        next ev1 l1 heq =>
          injection h with h
          injection h with h1 h2
          rw [← h1]
          obtain ⟨ih1, ih2⟩ := ih heq
          refine ⟨?_, ?_⟩
          · show renamesOfFs (FsEvent.skipUnmatched f.name :: ev1) = []
            unfold renamesOfFs at ih1 ⊢
            rw [List.filterMap_cons]
            exact ih1
          · show seasonSkippedIn (FsEvent.skipUnmatched f.name :: ev1) = false
            unfold seasonSkippedIn at ih2 ⊢
            rw [List.any_cons]
            rw [ih2]
            rfl
      · split at h
        · exact absurd h (by simp)
        next ev1 l1 heq =>
          injection h with h
          injection h with h1 h2
          rw [← h1]
          exact ih heq

theorem fileRes_eq_spec (ex : Option (String → Option String)) (cache : String) (nm : String)
    (info : EpisodeInfo) :
    (match (if !pyTruthy (fileResolutionStep ex info.resolution nm) then some cache
            else fileResolutionStep ex info.resolution nm) with
     | some s => s
     | none => "") = specFileResolution ex cache nm info := by
  unfold specFileResolution fileResolutionStep applyExtractor
  cases hres : info.resolution with
  | some s =>
    by_cases hs : (s == "") = true
    · cases ex with
      | none => simp [pyTruthy, firstTruthy, hs]
      | some f =>
        cases hf : f nm with
        | none => simp [pyTruthy, firstTruthy, hs, hf]
        | some s2 =>
          by_cases hs2 : (s2 == "") = true
          · simp [pyTruthy, firstTruthy, hs, hf, hs2]
          · simp [pyTruthy, firstTruthy, hs, hf, hs2]
    · simp [pyTruthy, firstTruthy, hs]
  | none =>
    cases ex with
    | none => simp [pyTruthy, firstTruthy]
    | some f =>
      cases hf : f nm with
      | none => simp [pyTruthy, firstTruthy, hf]
      | some s2 =>
        by_cases hs2 : (s2 == "") = true
        · simp [pyTruthy, firstTruthy, hf, hs2]
        · simp [pyTruthy, firstTruthy, hf, hs2]

theorem seasonRenameLoop_spec (ex : Option (String → Option String)) (showName cache : String)
    (dry : Bool) :
    ∀ (toRename : List (String × EpisodeInfo)) (st : List FileEnt),
      renamesOfFs (seasonRenameLoop ex showName cache dry toRename st).1
          = (toRename.map (fun q => (q.1, buildNewFilename showName q.2.season q.2.episodes
              (specFileResolution ex cache q.1 q.2)))).filter (fun q => !(q.1 == q.2)) ∧
        seasonSkippedIn (seasonRenameLoop ex showName cache dry toRename st).1 = false := by
  intro toRename
  induction toRename with
  | nil => intro st; exact ⟨rfl, rfl⟩
  | cons q rest ih =>
    intro st
    obtain ⟨nm, info⟩ := q
    simp only [seasonRenameLoop]
    rw [fileRes_eq_spec ex cache nm info]
    simp only [List.map_cons, List.filter_cons]
    split
    next heq =>
      obtain ⟨ih1, ih2⟩ := ih st
      have hfilter : (!(nm == buildNewFilename showName info.season info.episodes
          (specFileResolution ex cache nm info))) = false := by
        rw [heq]
        rfl
      rw [hfilter]
      simp only [Bool.false_eq_true, if_false]
      refine ⟨?_, ?_⟩
      · unfold renamesOfFs at ih1 ⊢
        rw [List.filterMap_cons]
        exact ih1
      · unfold seasonSkippedIn at ih2 ⊢
        rw [List.any_cons, ih2]
        rfl
    next heq =>
      obtain ⟨ih1, ih2⟩ := ih (if dry then st else renameFile st nm
        (buildNewFilename showName info.season info.episodes
          (specFileResolution ex cache nm info)))
      have hfilter : (!(nm == buildNewFilename showName info.season info.episodes
          (specFileResolution ex cache nm info))) = true := by
        simp only [Bool.not_eq_true']
        cases hb : (nm == buildNewFilename showName info.season info.episodes
          (specFileResolution ex cache nm info)) with
        | true => exact absurd hb heq
        | false => rfl
      rw [hfilter]
      simp only [if_true]
      refine ⟨?_, ?_⟩
      · unfold renamesOfFs at ih1 ⊢
        rw [List.filterMap_cons]
        simp only []
        rw [ih1]
      · unfold seasonSkippedIn at ih2 ⊢
        rw [List.any_cons, ih2]
        rfl

theorem specSeasonResolution_chain (ex : Option (String → Option String))
    (probe : String → Option String) (nm0 : String) (info0 : EpisodeInfo) :
    specSeasonResolution ex probe nm0 info0
      = (if pyTruthy (if !pyTruthy (if pyTruthy info0.resolution then info0.resolution
            else applyExtractor ex nm0) then probe nm0
          else (if pyTruthy info0.resolution then info0.resolution
            else applyExtractor ex nm0))
        then (if !pyTruthy (if pyTruthy info0.resolution then info0.resolution
            else applyExtractor ex nm0) then probe nm0
          else (if pyTruthy info0.resolution then info0.resolution
            else applyExtractor ex nm0))
        else none) := by
  unfold specSeasonResolution
  by_cases h1 : pyTruthy info0.resolution = true
  · simp [firstTruthy, h1]
  · have h1f : pyTruthy info0.resolution = false := by
      cases hb : pyTruthy info0.resolution with
      | true => exact absurd hb h1
      | false => rfl
    by_cases h2 : pyTruthy (applyExtractor ex nm0) = true
    · simp [firstTruthy, h1f, h2]
    · have h2f : pyTruthy (applyExtractor ex nm0) = false := by
        cases hb : pyTruthy (applyExtractor ex nm0) with
        | true => exact absurd hb h2
        | false => rfl
      by_cases h3 : pyTruthy (probe nm0) = true
      · simp [firstTruthy, h1f, h2f, h3]
      · have h3f : pyTruthy (probe nm0) = false := by
          cases hb : pyTruthy (probe nm0) with
          | true => exact absurd hb h3
          | false => rfl
        simp [firstTruthy, h1f, h2f, h3f]

theorem pyTruthy_none_false : pyTruthy none = false := rfl

theorem renameFilesInSeason_eq_spec (parse : String → Except PyErr (Option EpisodeInfo))
    (extractor : Option (String → Option String)) (probe : String → Option String)
    (showName : String) (dirFiles : List FileEnt) (dry : Bool) :
    Except.map (fun p => (renamesOfFs p.1, seasonSkippedIn p.1))
        (renameFilesInSeason parse extractor probe showName dirFiles dry)
      = Except.map (fun o => match o with
          | none => (([] : List (String × String)), true)
          | some pl => (pl, false))
        (specSeasonPlan parse extractor probe showName dirFiles) := by
  unfold renameFilesInSeason specSeasonPlan
  cases hcol : seasonCollect parse (sortFiles dirFiles) with
  | error e => rfl
  | ok p =>
    obtain ⟨ev0, toRename⟩ := p
    obtain ⟨hev0r, hev0s⟩ := seasonCollect_shape hcol
    cases toRename with
    | nil =>
      show Except.map (fun p => (renamesOfFs p.1, seasonSkippedIn p.1)) (.ok (ev0, dirFiles)) = _
      simp [Except.map, hev0r, hev0s]
    | cons q rest =>
      obtain ⟨nm0, info0⟩ := q
      have hempty1 : renamesOfFs ([] : List FsEvent) = [] := rfl
      have hempty2 : seasonSkippedIn ([] : List FsEvent) = false := rfl
      have hprob1 : renamesOfFs [FsEvent.probing] = [] := rfl
      have hprob2 : seasonSkippedIn [FsEvent.probing] = false := rfl
      have hskip1 : renamesOfFs [FsEvent.seasonSkipped] = [] := rfl
      have hskip2 : seasonSkippedIn [FsEvent.seasonSkipped] = true := rfl
      by_cases h1 : pyTruthy info0.resolution = true
      · cases hres : info0.resolution with
        | none =>
          rw [hres] at h1
          exact absurd h1 (by simp [pyTruthy])
        | some s =>
          have hps : pyTruthy (some s) = true := by rw [← hres]; exact h1
          obtain ⟨hl1, hl2⟩ :=
            seasonRenameLoop_spec extractor showName s dry ((nm0, info0) :: rest) dirFiles
          simp [Except.map, specSeasonResolution, firstTruthy, hres, hps,
            hev0r, hev0s, renamesOfFs_append, seasonSkippedIn_append,
            hempty1, hempty2]
          exact ⟨by rw [hl1, List.map_cons], hl2⟩
      · have h1f : pyTruthy info0.resolution = false := by
          cases hb : pyTruthy info0.resolution with
          | true => exact absurd hb h1
          | false => rfl
        have hEA : (match extractor with
            | some ex => ex nm0
            | none => none) = applyExtractor extractor nm0 := by
          cases extractor <;> rfl
        by_cases h2 : pyTruthy (applyExtractor extractor nm0) = true
        · cases hex : extractor with
          | none =>
            rw [hex] at h2
            exact absurd h2 (by simp [applyExtractor, pyTruthy])
          | some f =>
            cases hf : f nm0 with
            | none =>
              rw [hex] at h2
              rw [show applyExtractor (some f) nm0 = f nm0 from rfl, hf] at h2
              exact absurd h2 (by simp [pyTruthy])
            | some s2 =>
              have hps2 : pyTruthy (some s2) = true := by
                rw [hex] at h2
                rw [show applyExtractor (some f) nm0 = f nm0 from rfl, hf] at h2
                exact h2
              obtain ⟨hl1, hl2⟩ :=
                seasonRenameLoop_spec extractor showName s2 dry ((nm0, info0) :: rest) dirFiles
              rw [hex] at hl1 hl2
              simp [Except.map, specSeasonResolution, firstTruthy, applyExtractor,
                h1f, hex, hf, hps2, hev0r, hev0s, renamesOfFs_append, seasonSkippedIn_append,
                hempty1, hempty2]
              exact ⟨by rw [hl1, List.map_cons], hl2⟩
        · have h2f : pyTruthy (applyExtractor extractor nm0) = false := by
            cases hb : pyTruthy (applyExtractor extractor nm0) with
            | true => exact absurd hb h2
            | false => rfl
          by_cases h3 : pyTruthy (probe nm0) = true
          · cases hp : probe nm0 with
            | none =>
              rw [hp] at h3
              exact absurd h3 (by simp [pyTruthy])
            | some s3 =>
              have hps3 : pyTruthy (some s3) = true := by rw [← hp]; exact h3
              obtain ⟨hl1, hl2⟩ :=
                seasonRenameLoop_spec extractor showName s3 dry ((nm0, info0) :: rest) dirFiles
              have hpc1 : ∀ ev, renamesOfFs (FsEvent.probing :: ev) = renamesOfFs ev :=
                fun ev => rfl
              have hpc2 : ∀ ev, seasonSkippedIn (FsEvent.probing :: ev) = seasonSkippedIn ev :=
                fun ev => rfl
              simp [Except.map, specSeasonResolution, firstTruthy, hEA, h1f, h2f,
                hp, hps3, hev0r, hev0s, renamesOfFs_append, seasonSkippedIn_append,
                hprob1, hprob2, hpc1, hpc2]
              exact ⟨by rw [hl1, List.map_cons], hl2⟩
          · have h3f : pyTruthy (probe nm0) = false := by
              cases hb : pyTruthy (probe nm0) with
              | true => exact absurd hb h3
              | false => rfl
            simp [Except.map, specSeasonResolution, firstTruthy, hEA, h1f, h2f, h3f,
              hev0r, hev0s, renamesOfFs_append, seasonSkippedIn_append,
              hprob1, hprob2, hskip1, hskip2]
            exact ⟨rfl, rfl⟩

/-! ### Two-phase ordering of `run` -/

theorem mem_of_getElem_opt {α : Type} {l : List α} {i : Nat} {a : α}
    (h : l[i]? = some a) : a ∈ l := by
  obtain ⟨hlt, he⟩ := List.getElem?_eq_some.1 h
  exact he ▸ l.getElem_mem hlt

theorem runPhase1_no_dir_events (cfg : RenConfig) (probe : String → String → Option String)
    (dry : Bool) :
    ∀ (ds : List String) (st : List DirEnt),
      ∀ e ∈ (runPhase1 cfg probe dry ds st).1, isDirRenameEv e = false := by
  intro ds
  induction ds with
  | nil => intro st e he; simp [runPhase1] at he
  | cons d ds ih =>
    intro st e he
    simp only [runPhase1] at he
    split at he
    · simp at he
    · rw [List.mem_cons] at he
      rcases he with rfl | he
      · rfl
      · exact ih st e he
    · split at he
      · rw [List.mem_singleton] at he
        subst he
        rfl
      · rw [List.mem_cons] at he
        rcases he with rfl | he
        · rfl
        · rw [List.mem_append] at he
          rcases he with he | he
          · rw [List.mem_map] at he
            obtain ⟨x, _, rfl⟩ := he
            rfl
          · exact ih _ e he

theorem renameSeasonDirectoryStep_dir_events {seasonPats : List (String → Option PyMatchD)}
    {showNameSpaced d : String} {dry : Bool} {q : List RunEvent × Option (String × String)}
    (h : renameSeasonDirectoryStep seasonPats showNameSpaced d dry = .ok q) :
    ∀ e ∈ q.1, isFileRenameEv e = false := by
  unfold renameSeasonDirectoryStep at h
  split at h
  · exact absurd h (by simp)
  · injection h with h
    subst h
    intro e he
    rw [List.mem_singleton] at he
    subst he
    rfl
  · split at h <;>
      (injection h with h; subst h; intro e he; rw [List.mem_singleton] at he; subst he; rfl)

theorem runPhase2_no_file_events (cfg : RenConfig) (dry : Bool) :
    ∀ (ds : List String) (st : List DirEnt),
      ∀ e ∈ (runPhase2 cfg dry ds st).1, isFileRenameEv e = false := by
  intro ds
  induction ds with
  | nil => intro st e he; simp [runPhase2] at he
  | cons d ds ih =>
    intro st e he
    simp only [runPhase2] at he
    split at he
    · simp at he
    · exact ih st e he
    · split at he
      · simp at he
      next q heq =>
        rw [List.mem_append] at he
        rcases he with he | he
        · exact renameSeasonDirectoryStep_dir_events heq e he
        · exact ih _ e he

/-! ### Dry run: zero mutations and an identical plan -/

theorem seasonRenameLoop_dry (ex : Option (String → Option String)) (showName cache : String) :
    ∀ (l : List (String × EpisodeInfo)) (st : List FileEnt),
      (seasonRenameLoop ex showName cache true l st).2 = st := by
  intro l
  induction l with
  | nil => intro st; rfl
  | cons q rest ih =>
    intro st
    obtain ⟨nm, info⟩ := q
    simp only [seasonRenameLoop]
    split <;> split <;> exact ih st

theorem seasonRenameLoop_events_inv (ex : Option (String → Option String))
    (showName cache : String) :
    ∀ (l : List (String × EpisodeInfo)) (st1 st2 : List FileEnt) (d1 d2 : Bool),
      (seasonRenameLoop ex showName cache d1 l st1).1
        = (seasonRenameLoop ex showName cache d2 l st2).1 := by
  intro l
  induction l with
  | nil => intro st1 st2 d1 d2; rfl
  | cons q rest ih =>
    intro st1 st2 d1 d2
    obtain ⟨nm, info⟩ := q
    simp only [seasonRenameLoop]
    split <;> split <;> exact congrArg (List.cons _) (ih _ _ d1 d2)

theorem renameFilesInSeason_dry {parse : String → Except PyErr (Option EpisodeInfo)}
    {ex : Option (String → Option String)} {probe : String → Option String}
    {showName : String} {dirFiles : List FileEnt} {q : List FsEvent × List FileEnt}
    (h : renameFilesInSeason parse ex probe showName dirFiles true = .ok q) :
    q.2 = dirFiles := by
  simp only [renameFilesInSeason] at h
  repeat' split at h
  all_goals first
    | exact Except.noConfusion h
    | (injection h with h; subst h; rfl)
    | (injection h with h; subst h; exact seasonRenameLoop_dry _ _ _ _ _)

theorem renameFilesInSeason_inv (parse : String → Except PyErr (Option EpisodeInfo))
    (ex : Option (String → Option String)) (probe : String → Option String)
    (showName : String) (dirFiles : List FileEnt) (d1 d2 : Bool) :
    Except.map Prod.fst (renameFilesInSeason parse ex probe showName dirFiles d1)
      = Except.map Prod.fst (renameFilesInSeason parse ex probe showName dirFiles d2) := by
  simp only [renameFilesInSeason]
  repeat' split
  all_goals first
    | rfl
    | (simp only [Except.map]
       exact congrArg (fun x => Except.ok (_ ++ _ ++ x))
         (seasonRenameLoop_events_inv ex showName _ _ dirFiles dirFiles d1 d2))

theorem setDirFiles_names (st : List DirEnt) (d : String) (f : List FileEnt) :
    (setDirFiles st d f).map (fun e => e.name) = st.map (fun e => e.name) := by
  induction st with
  | nil => rfl
  | cons e rest ih =>
    simp only [setDirFiles, List.map_cons] at ih ⊢
    split
    · rw [ih]
    · rw [ih]

theorem lookupDirFiles_set_ne {st : List DirEnt} {d d' : String} {f : List FileEnt}
    (hne : d' ≠ d) :
    lookupDirFiles (setDirFiles st d f) d' = lookupDirFiles st d' := by
  induction st with
  | nil => rfl
  | cons e rest ih =>
    simp only [setDirFiles, List.map_cons, lookupDirFiles]
    by_cases hd : (e.name == d) = true
    · rw [if_pos hd]
      have hed : e.name = d := by simpa using hd
      have hnd' : (e.name == d') = false := by
        rw [hed]
        exact beq_eq_false_iff_ne.2 (fun hc => hne hc.symm)
      rw [List.find?_cons_of_neg _ (by simp [hnd'])]
      rw [List.find?_cons_of_neg _ (by simp [hnd'])]
      unfold lookupDirFiles at ih
      unfold setDirFiles at ih
      exact ih
    · rw [if_neg hd]
      by_cases hd' : (e.name == d') = true
      · rw [List.find?_cons_of_pos _ (by simp [hd']), List.find?_cons_of_pos _ (by simp [hd'])]
      · rw [List.find?_cons_of_neg _ (by simp [hd']), List.find?_cons_of_neg _ (by simp [hd'])]
        unfold lookupDirFiles setDirFiles at ih
        exact ih

theorem set_lookup_self {st : List DirEnt} (hnd : (st.map (fun e => e.name)).Nodup)
    (d : String) : setDirFiles st d (lookupDirFiles st d) = st := by
  induction st with
  | nil => rfl
  | cons e rest ih =>
    rw [List.map_cons, List.nodup_cons] at hnd
    obtain ⟨hnotmem, hndrest⟩ := hnd
    by_cases hd : (e.name == d) = true
    · have hlk : lookupDirFiles (e :: rest) d = e.files := by
        unfold lookupDirFiles
        rw [List.find?_cons_of_pos _ (by simp [hd])]
      rw [hlk]
      have hrest : ∀ x ∈ rest, (x.name == d) = false := by
        intro x hx
        have hed : e.name = d := by simpa using hd
        cases hb : (x.name == d) with
        | true =>
          have hxd : x.name = d := by simpa using hb
          have hmem : x.name ∈ rest.map (fun e => e.name) :=
            List.mem_map_of_mem (fun e => e.name) hx
          rw [hxd, ← hed] at hmem
          exact absurd hmem hnotmem
        | false => rfl
      unfold setDirFiles
      rw [List.map_cons, if_pos hd]
      have hset : rest.map (fun x => if x.name == d then { x with files := e.files } else x)
          = rest :=
        map_id_of_forall (fun x hx => by rw [hrest x hx]; simp)
      rw [hset]
    · have hlk : lookupDirFiles (e :: rest) d = lookupDirFiles rest d := by
        unfold lookupDirFiles
        rw [List.find?_cons_of_neg _ (by simp [hd])]
      rw [hlk]
      unfold setDirFiles
      rw [List.map_cons, if_neg hd]
      have := ih hndrest
      unfold setDirFiles at this
      rw [this]

theorem renameSeasonDirectoryStep_dry {sp : List (String → Option PyMatchD)}
    {sns d : String} {q : List RunEvent × Option (String × String)}
    (h : renameSeasonDirectoryStep sp sns d true = .ok q) : q.2 = none := by
  unfold renameSeasonDirectoryStep at h
  split at h
  · exact Except.noConfusion h
  · injection h with h
    subst h
    rfl
  · split at h
    · injection h with h
      subst h
      rfl
    · injection h with h
      subst h
      rfl

theorem renameSeasonDirectoryStep_inv (sp : List (String → Option PyMatchD))
    (sns d : String) (d1 d2 : Bool) :
    Except.map Prod.fst (renameSeasonDirectoryStep sp sns d d1)
      = Except.map Prod.fst (renameSeasonDirectoryStep sp sns d d2) := by
  unfold renameSeasonDirectoryStep
  split
  · rfl
  · rfl
  · split
    · rfl
    · rfl

theorem runPhase2_dry (cfg : RenConfig) :
    ∀ (ds : List String) (st : List DirEnt), (runPhase2 cfg true ds st).2.1 = st := by
  intro ds
  induction ds with
  | nil => intro st; rfl
  | cons d ds ih =>
    intro st
    simp only [runPhase2]
    cases hget : getSeasonFromDirectory cfg.seasonDirPatterns d with
    | error e => rfl
    | ok os =>
      cases os with
      | none => exact ih st
      | some sn =>
        cases hstep : renameSeasonDirectoryStep cfg.seasonDirPatterns cfg.showNameSpaced d true with
        | error e => rfl
        | ok q =>
          have hq := renameSeasonDirectoryStep_dry hstep
          show (runPhase2 cfg true ds
            (match q.2 with | some p => renameDirEnt st p.1 p.2 | none => st)).2.1 = st
          rw [hq]
          exact ih st

theorem runPhase2_inv (cfg : RenConfig) :
    ∀ (ds : List String) (st1 st2 : List DirEnt) (d1 d2 : Bool),
      (runPhase2 cfg d1 ds st1).1 = (runPhase2 cfg d2 ds st2).1 ∧
      (runPhase2 cfg d1 ds st1).2.2 = (runPhase2 cfg d2 ds st2).2.2 := by
  intro ds
  induction ds with
  | nil => intro st1 st2 d1 d2; exact ⟨rfl, rfl⟩
  | cons d ds ih =>
    intro st1 st2 d1 d2
    simp only [runPhase2]
    cases hget : getSeasonFromDirectory cfg.seasonDirPatterns d with
    | error e => exact ⟨rfl, rfl⟩
    | ok os =>
      cases os with
      | none => exact ih st1 st2 d1 d2
      | some sn =>
        have hinv := renameSeasonDirectoryStep_inv cfg.seasonDirPatterns cfg.showNameSpaced d d1 d2
        cases hstep1 : renameSeasonDirectoryStep cfg.seasonDirPatterns cfg.showNameSpaced d d1 with
        | error e =>
          rw [hstep1] at hinv
          cases hstep2 : renameSeasonDirectoryStep cfg.seasonDirPatterns cfg.showNameSpaced d d2 with
          | error e2 =>
            rw [hstep2] at hinv
            simp only [Except.map] at hinv
            injection hinv with hinv
            rw [hinv]
            exact ⟨rfl, rfl⟩
          | ok q2 =>
            rw [hstep2] at hinv
            exact absurd hinv (by simp [Except.map])
        | ok q1 =>
          rw [hstep1] at hinv
          cases hstep2 : renameSeasonDirectoryStep cfg.seasonDirPatterns cfg.showNameSpaced d d2 with
          | error e2 =>
            rw [hstep2] at hinv
            exact absurd hinv (by simp [Except.map])
          | ok q2 =>
            rw [hstep2] at hinv
            simp only [Except.map] at hinv
            injection hinv with hinv
            obtain ⟨ihev, iherr⟩ :=
              ih (match q1.2 with | some p => renameDirEnt st1 p.1 p.2 | none => st1)
                (match q2.2 with | some p => renameDirEnt st2 p.1 p.2 | none => st2) d1 d2
            refine ⟨?_, iherr⟩
            show q1.1 ++ (runPhase2 cfg d1 ds
                (match q1.2 with | some p => renameDirEnt st1 p.1 p.2 | none => st1)).1
              = q2.1 ++ (runPhase2 cfg d2 ds
                (match q2.2 with | some p => renameDirEnt st2 p.1 p.2 | none => st2)).1
            rw [hinv, ihev]

theorem runPhase1_dry (cfg : RenConfig) (probe : String → String → Option String) :
    ∀ (ds : List String) (st : List DirEnt), (st.map (fun e => e.name)).Nodup →
      (runPhase1 cfg probe true ds st).2.1 = st := by
  intro ds
  induction ds with
  | nil => intro st _; rfl
  | cons d ds ih =>
    intro st hnd
    cases hget : getSeasonFromDirectory cfg.seasonDirPatterns d with
    | error e => simp only [runPhase1, hget]
    | ok os =>
      cases os with
      | none =>
        simp only [runPhase1, hget]
        exact ih st hnd
      | some sn =>
        simp only [runPhase1, hget]
        cases hrf : renameFilesInSeason
            (fun fn => parseEpisodeInfo cfg.episodePatterns fn (some sn))
            cfg.resolutionExtractor (probe d) cfg.showName (lookupDirFiles st d) true with
        | error e => rfl
        | ok q =>
          have hq := renameFilesInSeason_dry hrf
          show (runPhase1 cfg probe true ds (setDirFiles st d q.2)).2.1 = st
          rw [hq, set_lookup_self hnd]
          exact ih st hnd

theorem runPhase1_plan (cfg : RenConfig) (probe : String → String → Option String) :
    ∀ (ds : List String) (stT stF : List DirEnt),
      (∀ d ∈ ds, lookupDirFiles stF d = lookupDirFiles stT d) → ds.Nodup →
      (runPhase1 cfg probe true ds stT).1 = (runPhase1 cfg probe false ds stF).1 ∧
      (runPhase1 cfg probe true ds stT).2.2 = (runPhase1 cfg probe false ds stF).2.2 := by
  intro ds
  induction ds with
  | nil => intro stT stF _ _; exact ⟨rfl, rfl⟩
  | cons d ds ih =>
    intro stT stF hlk hnd
    rw [List.nodup_cons] at hnd
    obtain ⟨hdnotin, hndrest⟩ := hnd
    have hlkd : lookupDirFiles stF d = lookupDirFiles stT d := hlk d (List.mem_cons_self d ds)
    cases hget : getSeasonFromDirectory cfg.seasonDirPatterns d with
    | error e =>
      simp only [runPhase1, hget]
      constructor <;> trivial
    | ok os =>
      cases os with
      | none =>
        simp only [runPhase1, hget]
        obtain ⟨ihev, iherr⟩ := ih stT stF (fun x hx => hlk x (List.mem_cons_of_mem d hx)) hndrest
        refine ⟨?_, iherr⟩
        show RunEvent.skipNonSeason d :: (runPhase1 cfg probe true ds stT).1
          = RunEvent.skipNonSeason d :: (runPhase1 cfg probe false ds stF).1
        rw [ihev]
      | some sn =>
        simp only [runPhase1, hget]
        rw [hlkd]
        have hinv := renameFilesInSeason_inv
          (fun fn => parseEpisodeInfo cfg.episodePatterns fn (some sn))
          cfg.resolutionExtractor (probe d) cfg.showName (lookupDirFiles stT d) true false
        cases hrfT : renameFilesInSeason
            (fun fn => parseEpisodeInfo cfg.episodePatterns fn (some sn))
            cfg.resolutionExtractor (probe d) cfg.showName (lookupDirFiles stT d) true with
        | error e =>
          rw [hrfT] at hinv
          cases hrfF : renameFilesInSeason
              (fun fn => parseEpisodeInfo cfg.episodePatterns fn (some sn))
              cfg.resolutionExtractor (probe d) cfg.showName (lookupDirFiles stT d) false with
          | error e2 =>
            rw [hrfF] at hinv
            simp only [Except.map] at hinv
            injection hinv with hinv
            rw [hinv]
            exact ⟨rfl, rfl⟩
          | ok q2 =>
            rw [hrfF] at hinv
            exact absurd hinv (by simp [Except.map])
        | ok q1 =>
          rw [hrfT] at hinv
          cases hrfF : renameFilesInSeason
              (fun fn => parseEpisodeInfo cfg.episodePatterns fn (some sn))
              cfg.resolutionExtractor (probe d) cfg.showName (lookupDirFiles stT d) false with
          | error e2 =>
            rw [hrfF] at hinv
            exact absurd hinv (by simp [Except.map])
          | ok q2 =>
            rw [hrfF] at hinv
            simp only [Except.map] at hinv
            injection hinv with hinv
            have hlk2 : ∀ x ∈ ds, lookupDirFiles (setDirFiles stF d q2.2) x
                = lookupDirFiles (setDirFiles stT d q1.2) x := by
              intro x hx
              have hxd : x ≠ d := fun hc => hdnotin (hc ▸ hx)
              rw [lookupDirFiles_set_ne hxd, lookupDirFiles_set_ne hxd]
              exact hlk x (List.mem_cons_of_mem d hx)
            obtain ⟨ihev, iherr⟩ := ih (setDirFiles stT d q1.2) (setDirFiles stF d q2.2)
              hlk2 hndrest
            refine ⟨?_, iherr⟩
            show RunEvent.processing d sn
                :: (q1.1.map (RunEvent.fileEv d)
                  ++ (runPhase1 cfg probe true ds (setDirFiles stT d q1.2)).1)
              = RunEvent.processing d sn
                :: (q2.1.map (RunEvent.fileEv d)
                  ++ (runPhase1 cfg probe false ds (setDirFiles stF d q2.2)).1)
            rw [hinv, ihev]

theorem seasonDirs_nodup {st : List DirEnt} (hnd : (st.map (fun e => e.name)).Nodup) :
    (sortStrings ((st.filter (fun e => e.isDir && !startsWithDot e.name)).map
      (fun e => e.name))).Nodup := by
  have hsub : List.Sublist (st.filter (fun e => e.isDir && !startsWithDot e.name)) st :=
    List.filter_sublist st
  have h1 : ((st.filter (fun e => e.isDir && !startsWithDot e.name)).map
      (fun e => e.name)).Nodup :=
    List.Nodup.sublist (List.Sublist.map _ hsub) hnd
  exact ((List.perm_insertionSort _ _).nodup_iff).2 h1

theorem run_dry_faithful (cfg : RenConfig) (probe : String → String → Option String)
    (st : List DirEnt) (hnd : (st.map (fun e => e.name)).Nodup) :
    (runRenamer cfg probe true st).2.1 = st ∧
    (runRenamer cfg probe true st).1 = (runRenamer cfg probe false st).1 ∧
    (runRenamer cfg probe true st).2.2 = (runRenamer cfg probe false st).2.2 := by
  have hdirs := seasonDirs_nodup hnd
  simp only [runRenamer]
  generalize hds : sortStrings ((st.filter (fun e => e.isDir && !startsWithDot e.name)).map
    (fun e => e.name)) = ds
  rw [hds] at hdirs
  obtain ⟨hp1ev, hp1err⟩ := runPhase1_plan cfg probe ds st st (fun d _ => rfl) hdirs
  have hp1T := runPhase1_dry cfg probe ds st hnd
  cases herrT : (runPhase1 cfg probe true ds st).2.2 with
  | some e =>
    have herrF : (runPhase1 cfg probe false ds st).2.2 = some e := by
      rw [← hp1err]
      exact herrT
    rw [herrF]
    refine ⟨?_, ?_, ?_⟩
    · exact hp1T
    · exact hp1ev
    · rfl
  | none =>
    have herrF : (runPhase1 cfg probe false ds st).2.2 = none := by
      rw [← hp1err]
      exact herrT
    rw [herrF]
    refine ⟨?_, ?_, ?_⟩
    · show (runPhase2 cfg true ds (runPhase1 cfg probe true ds st).2.1).2.1 = st
      rw [hp1T]
      exact runPhase2_dry cfg ds st
    · show (runPhase1 cfg probe true ds st).1
          ++ (runPhase2 cfg true ds (runPhase1 cfg probe true ds st).2.1).1
        = (runPhase1 cfg probe false ds st).1
          ++ (runPhase2 cfg false ds (runPhase1 cfg probe false ds st).2.1).1
      rw [hp1ev, (runPhase2_inv cfg ds ((runPhase1 cfg probe true ds st).2.1)
        ((runPhase1 cfg probe false ds st).2.1) true false).1]
    · show (runPhase2 cfg true ds (runPhase1 cfg probe true ds st).2.1).2.2
        = (runPhase2 cfg false ds (runPhase1 cfg probe false ds st).2.1).2.2
      exact (runPhase2_inv cfg ds ((runPhase1 cfg probe true ds st).2.1)
        ((runPhase1 cfg probe false ds st).2.1) true false).2

theorem runRenamer_file_before_dir (cfg : RenConfig) (probe : String → String → Option String)
    (dry : Bool) (st : List DirEnt) (i j : Nat) (e1 e2 : RunEvent)
    (hi : (runRenamer cfg probe dry st).1[i]? = some e1) (hfe : isFileRenameEv e1 = true)
    (hj : (runRenamer cfg probe dry st).1[j]? = some e2) (hde : isDirRenameEv e2 = true) :
    i < j := by
  simp only [runRenamer] at hi hj
  cases herr : (runPhase1 cfg probe dry
      (sortStrings ((st.filter (fun e => e.isDir && !startsWithDot e.name)).map
        (fun e => e.name))) st).2.2 with
  | some e =>
    simp only [herr] at hj
    have hmem : e2 ∈ (runPhase1 cfg probe dry
        (sortStrings ((st.filter (fun e => e.isDir && !startsWithDot e.name)).map
          (fun e => e.name))) st).1 := mem_of_getElem_opt hj
    have := runPhase1_no_dir_events cfg probe dry _ _ e2 hmem
    rw [hde] at this
    exact absurd this (by simp)
  | none =>
    simp only [herr] at hi hj
    rw [List.getElem?_append] at hi hj
    split at hj
    · have hmem : e2 ∈ (runPhase1 cfg probe dry
          (sortStrings ((st.filter (fun e => e.isDir && !startsWithDot e.name)).map
            (fun e => e.name))) st).1 := mem_of_getElem_opt hj
      have := runPhase1_no_dir_events cfg probe dry _ _ e2 hmem
      rw [hde] at this
      exact absurd this (by simp)
    · split at hi
      next hilt => omega
      next hige =>
        have hmem : e1 ∈ (runPhase2 cfg dry
            (sortStrings ((st.filter (fun e => e.isDir && !startsWithDot e.name)).map
              (fun e => e.name)))
            (runPhase1 cfg probe dry
              (sortStrings ((st.filter (fun e => e.isDir && !startsWithDot e.name)).map
                (fun e => e.name))) st).2.1).1 := mem_of_getElem_opt hi
        have := runPhase2_no_file_events cfg dry _ _ e1 hmem
        rw [hfe] at this
        exact absurd this (by simp)

/-! ### The interactive prompt cannot influence the output -/

theorem normalizeG_prompt_indep {g : EpGroups} (hres : g.resolution ≠ []) (p1 p2 : List Char) :
    normalizeG p1 g = normalizeG p2 g := by
  have hb : (g.resolution == []) = false := by
    cases hbe : g.resolution == [] with
    | true => exact absurd (by simpa using hbe) hres
    | false => rfl
  simp [normalizeG, hb]

theorem normalizeL_prompt_indep (p : List Char) (s : List Char) :
    normalizeL p s = normalizeL [] s := by
  unfold normalizeL
  cases hm : episodeNameMatchL s with
  | none => rfl
  | some g =>
    obtain ⟨-, -, -, hres, -⟩ := episodeNameMatchL_spec hm
    obtain ⟨ds, c, hr, -, -, -⟩ := hres
    have hne : g.resolution ≠ [] := by
      rw [hr]
      simp
    exact congrArg some (normalizeG_prompt_indep hne p [])

/-! ### The claims -/

/-- Claim C1: `normalize` is idempotent on its own output — whenever it
returns a new name for a filename, applying it again to that name returns
the same name unchanged. -/
theorem c1_normalize_idempotent (s t : String) (h : normalize s = some t) :
    normalize t = some t := by
  simp only [normalize, normalizeWith] at h ⊢
  cases hm : normalizeL ("" : String).data s.data with
  | none =>
    rw [hm] at h
    exact absurd h (by simp)
  | some l =>
    rw [hm] at h
    simp only [Option.map_some'] at h
    have hl : String.mk l = t := Option.some.inj h
    have ht : t.data = l := by rw [← hl]
    have h2 : normalizeL ("" : String).data l = some l :=
      normalizeL_idem (show normalizeL [] s.data = some l from hm)
    rw [ht, h2]
    simp only [Option.map_some']
    rw [hl]

/-- C1 witness at a test vector of the repository. -/
theorem c1_normalize_idempotent_witness :
    normalize "Money.Heist.S01E01.(1080p).WEB-DL.mkv" = some "Money.Heist.S01E01.1080p.mkv" ∧
    normalize "Money.Heist.S01E01.1080p.mkv" = some "Money.Heist.S01E01.1080p.mkv" :=
  ⟨rfl, c1_normalize_idempotent "Money.Heist.S01E01.(1080p).WEB-DL.mkv"
    "Money.Heist.S01E01.1080p.mkv" rfl⟩

/-- Claim C2: the season resolution is decided once, from the first matched
file, by the chain own capture → extractor → probe; when all three fail the
season is skipped with no rename.  Each file is then renamed with its own
capture, else the extractor value, else the cached season value.  Stated as:
the renames and the season-skip notice of `rename_files_in_season` are
exactly those of the plan written from the spec's words. -/
theorem c2_season_resolution_chain (parse : String → Except PyErr (Option EpisodeInfo))
    (extractor : Option (String → Option String)) (probe : String → Option String)
    (showName : String) (dirFiles : List FileEnt) (dry : Bool) :
    Except.map (fun p => (renamesOfFs p.1, seasonSkippedIn p.1))
        (renameFilesInSeason parse extractor probe showName dirFiles dry)
      = Except.map (fun o => match o with
          | none => (([] : List (String × String)), true)
          | some pl => (pl, false))
        (specSeasonPlan parse extractor probe showName dirFiles) :=
  renameFilesInSeason_eq_spec parse extractor probe showName dirFiles dry

/-- Claim C3 fails on the code: a pattern that captures a non-numeric season
word makes `get_season_from_directory` raise `ValueError` from `int(...)` —
`except (AttributeError, IndexError)` does not catch it — instead of treating
the capture as undetermined. -/
theorem c3_get_season_raises :
    getSeasonFromDirectory [seasonWordPattern] "Season five" = .error PyErr.valueError := by
  rfl

/-- Claim C4 fails on the code: a pattern whose season capture is present but
non-numeric makes `parse_episode_info` raise `ValueError` from
`int(season_str)` — `except (IndexError, TypeError)` does not catch it —
instead of falling back to the directory-derived season. -/
theorem c4_parse_episode_info_raises :
    parseEpisodeInfo [nonNumericSeasonPattern] "Show.Xx3.mkv" (some 5)
      = .error PyErr.valueError := by
  rfl

/-- Claim C5 counterexample: the character class `[pрi]` admits `i`, so
`normalize` emits the resolution label `1080i` into its output verbatim —
a label that is not of the form `<digits>p`. -/
theorem c5_resolution_label_counterexample :
    normalize "Show.S01E01.1080i.mkv" = some "Show.S01E01.1080i.mkv" ∧
    episodeNameMatchL ("Show.S01E01.1080i.mkv" : String).data
      = some ⟨("Show." : String).data, ("01" : String).data, ("E01" : String).data,
          ("1080i" : String).data, ("mkv" : String).data⟩ ∧
    isDigitsP ("1080i" : String).data = false :=
  ⟨rfl, rfl, rfl⟩

/-- Claim C5 amended: labels from height bucketing are always `<digits>p`;
labels derived from a pattern capture by `parse_episode_info` always end in
`p`; a label `normalize` emits consists of the matched digits followed by `p`
or by `i` (the Cyrillic `р` is rewritten to `p`, but a trailing `i` is kept
verbatim). -/
theorem c5_resolution_label_amended :
    (∀ h : Nat, isDigitsP (bucketLabel h).data = true) ∧
    (∀ (pats : List EpisodePattern) (fn : String) (sd : Option Int)
        (info : EpisodeInfo) (r : String),
      parseEpisodeInfo pats fn sd = .ok (some info) → info.resolution = some r →
      r.data.getLast? = some 'p') ∧
    (∀ (s : List Char) (g : EpGroups), episodeNameMatchL s = some g →
      (g.resolution.map ruToP).getLast? = some 'p'
        ∨ (g.resolution.map ruToP).getLast? = some 'i') := by
  refine ⟨bucketLabel_isDigitsP,
    fun pats fn sd info r h hr => parseEpisodeInfo_resolution h hr, ?_⟩
  intro s g hm
  obtain ⟨-, -, -, hres, -⟩ := episodeNameMatchL_spec hm
  obtain ⟨ds, c, hr, -, -, hrc⟩ := hres
  have hlast : (g.resolution.map ruToP).getLast? = some (ruToP c) := by
    rw [hr, List.map_append]
    simp only [List.map_cons, List.map_nil]
    rw [List.getLast?_concat]
  rcases isResChar_cases hrc with h1 | h1 | h1 <;> rw [h1] at hlast
  · exact Or.inl hlast
  · exact Or.inl hlast
  · exact Or.inr hlast

/-- C5 amended witness at concrete inputs. -/
theorem c5_resolution_label_amended_witness :
    isDigitsP (bucketLabel 1068).data = true ∧
    (parseEpisodeInfo [bareResolutionPattern] "x.mkv" none
        = .ok (some { season := 2, episodes := [3], resolution := some "1080p" }) ∧
      ("1080p" : String).data.getLast? = some 'p') ∧
    ((("1080i" : String).data.map ruToP).getLast? = some 'p'
      ∨ (("1080i" : String).data.map ruToP).getLast? = some 'i') := by
  refine ⟨c5_resolution_label_amended.1 1068, ⟨rfl, ?_⟩, ?_⟩
  · exact c5_resolution_label_amended.2.1 [bareResolutionPattern] "x.mkv" none
      { season := 2, episodes := [3], resolution := some "1080p" } "1080p" rfl rfl
  · exact c5_resolution_label_amended.2.2 ("Show.S01E01.1080i.mkv" : String).data
      ⟨("Show." : String).data, ("01" : String).data, ("E01" : String).data,
        ("1080i" : String).data, ("mkv" : String).data⟩ rfl

/-- Claim C6: the season and every episode number are zero-padded to at least
two digits and never truncated, and episode tokens are concatenated in order,
each prefixed `E`, with no separator; in particular
`normalize "Show.S1E1E2.720p.mkv"` is `"Show.S01E01E02.720p.mkv"`. -/
theorem c6_canonical_padding (season : Int) (episodes : List Int)
    (hs : 0 ≤ season) (he : ∀ e ∈ episodes, 0 ≤ e) :
    (2 ≤ (pyFmt02 season).length ∧ (pyFmt02 season).data.all isDig = true ∧
      (decValue (pyFmt02 season).data : Int) = season) ∧
    (∀ e ∈ episodes, 2 ≤ (pyFmt02 e).length ∧ (pyFmt02 e).data.all isDig = true ∧
      (decValue (pyFmt02 e).data : Int) = e) ∧
    buildNewFilename "Show" 1 [1, 2, 113] "720p" = "Show.S01E01E02E113.720p.mkv" ∧
    normalize "Show.S1E1E2.720p.mkv" = some "Show.S01E01E02.720p.mkv" :=
  ⟨pyFmt02_nonneg hs, fun e hee => pyFmt02_nonneg (he e hee), rfl, rfl⟩

/-- C6 witness at a concrete season and episode list. -/
theorem c6_canonical_padding_witness :
    (0 : Int) ≤ 5 ∧ (∀ e ∈ ([1, 2, 113] : List Int), 0 ≤ e) ∧ 2 ≤ (pyFmt02 5).length :=
  ⟨by decide, by decide, (c6_canonical_padding 5 [1, 2, 113] (by decide) (by decide)).1.1⟩

/-- Claim C7: in every run, every applied file-level rename is reported
before any season-directory rename (two-phase ordering). -/
theorem c7_two_phase_order (cfg : RenConfig) (probe : String → String → Option String)
    (dry : Bool) (st : List DirEnt) (i j : Nat) (e1 e2 : RunEvent)
    (hi : (runRenamer cfg probe dry st).1[i]? = some e1) (hfe : isFileRenameEv e1 = true)
    (hj : (runRenamer cfg probe dry st).1[j]? = some e2) (hde : isDirRenameEv e2 = true) :
    i < j :=
  runRenamer_file_before_dir cfg probe dry st i j e1 e2 hi hfe hj hde

/-- C7 witness on the concrete fixture run. -/
theorem c7_two_phase_order_witness :
    (runRenamer fixtureCfg fixtureProbe false fixtureSt).1[2]?
        = some (RunEvent.fileEv "Season 1" (FsEvent.renamed "a.mkv" "Show.S01E01.720p.mkv")) ∧
    isFileRenameEv (RunEvent.fileEv "Season 1"
        (FsEvent.renamed "a.mkv" "Show.S01E01.720p.mkv")) = true ∧
    (runRenamer fixtureCfg fixtureProbe false fixtureSt).1[3]?
        = some (RunEvent.dirRenamed "Season 1" "Show 1") ∧
    isDirRenameEv (RunEvent.dirRenamed "Season 1" "Show 1") = true ∧
    2 < 3 :=
  ⟨rfl, rfl, rfl, rfl,
    c7_two_phase_order fixtureCfg fixtureProbe false fixtureSt 2 3
      (RunEvent.fileEv "Season 1" (FsEvent.renamed "a.mkv" "Show.S01E01.720p.mkv"))
      (RunEvent.dirRenamed "Season 1" "Show 1") rfl rfl rfl rfl⟩

/-- Claim C8: a dry run mutates nothing — the final state is the input
state — and it reports exactly the events (the plan, renames and skips
included) of the real run on the same input state. -/
theorem c8_dry_run_faithful (cfg : RenConfig) (probe : String → String → Option String)
    (st : List DirEnt) (hnd : (st.map (fun e => e.name)).Nodup) :
    (runRenamer cfg probe true st).2.1 = st ∧
    (runRenamer cfg probe true st).1 = (runRenamer cfg probe false st).1 ∧
    (runRenamer cfg probe true st).2.2 = (runRenamer cfg probe false st).2.2 :=
  run_dry_faithful cfg probe st hnd

/-- C8 witness on the concrete fixture run. -/
theorem c8_dry_run_faithful_witness :
    (fixtureSt.map (fun e => e.name)).Nodup ∧
    (runRenamer fixtureCfg fixtureProbe true fixtureSt).2.1 = fixtureSt :=
  ⟨by decide, (c8_dry_run_faithful fixtureCfg fixtureProbe fixtureSt (by decide)).1⟩

/-- Claim C9: the probed pixel height is bucketed exactly as claimed:
`≥ 2000 → 2160p`, `≥ 1000 → 1080p`, `≥ 680 → 720p`, `≥ 450 → 480p`, else the
literal height followed by `p` (`specBucket` spells out those thresholds). -/
theorem c9_height_bucketing (out : String) (h : Nat)
    (hp : probeHeightL out.data = some h) :
    getResolutionFromMkvinfo (some out) = some (specBucket h) :=
  getResolutionFromMkvinfo_bucket hp

/-- C9 witness on a concrete probe output. -/
theorem c9_height_bucketing_witness :
    probeHeightL ("|+ Pixel height: 1068" : String).data = some 1068 ∧
    getResolutionFromMkvinfo (some "|+ Pixel height: 1068") = some (specBucket 1068) ∧
    specBucket 1068 = "1080p" :=
  ⟨rfl, c9_height_bucketing "|+ Pixel height: 1068" 1068 rfl, rfl⟩

/-- Claim C10: the interactive-prompt fallback of `normalize` is dead code:
whatever the prompt would read, the result is that of the promptless run
(so `normalize` is a pure function of its argument), because every
successful match captures a non-empty resolution group. -/
theorem c10_prompt_unreachable (prompt filename : String) :
    normalizeWith prompt filename = normalize filename ∧
    ∀ g, episodeNameMatchL filename.data = some g → g.resolution ≠ [] := by
  constructor
  · show (normalizeL prompt.data filename.data).map (fun l => String.mk l)
      = (normalizeL ("" : String).data filename.data).map (fun l => String.mk l)
    rw [normalizeL_prompt_indep prompt.data filename.data]
  · intro g hm
    obtain ⟨-, -, -, hres, -⟩ := episodeNameMatchL_spec hm
    obtain ⟨ds, c, hr, -, -, -⟩ := hres
    rw [hr]
    simp

/-- C10 witness at a concrete filename and prompt. -/
theorem c10_prompt_unreachable_witness :
    normalizeWith "999" "Shaman.King.S01E01.1080p.mkv"
      = normalize "Shaman.King.S01E01.1080p.mkv" ∧
    (⟨("Shaman.King." : String).data, ("01" : String).data, ("E01" : String).data,
        ("1080p" : String).data, ("mkv" : String).data⟩ : EpGroups).resolution ≠ [] :=
  ⟨(c10_prompt_unreachable "999" "Shaman.King.S01E01.1080p.mkv").1,
    (c10_prompt_unreachable "999" "Shaman.King.S01E01.1080p.mkv").2
      ⟨("Shaman.King." : String).data, ("01" : String).data, ("E01" : String).data,
        ("1080p" : String).data, ("mkv" : String).data⟩ rfl⟩

end SeriesProc
